import Mathlib

/-!
# Verification of the ktmpl template-processing engine

A shallow embedding of the ktmpl Kubernetes-manifest template processor:
parameter resolution, recursive placeholder substitution over a document
tree, secret matching/encoding (base64), and rendering.
-/

set_option maxHeartbeats 1000000
set_option linter.unusedVariables false

namespace Ktmpl

/-- The generic recursive document value type produced by parsing YAML
(the `DocumentNode` of the data model): scalar string, integer, boolean,
null, ordered mapping, ordered sequence. -/
inductive DocumentNode where
  | str (s : String)
  | int (n : Int)
  | bool (b : Bool)
  | null
  | seq (items : List DocumentNode)
  | map (entries : List (DocumentNode × DocumentNode))

/-- The error kinds of the engine. -/
inductive KtmplError where
  | parseError (msg : String)
  | missingRequiredParameter (name : String)
  | unknownParameterReference (name : String)
  | secretNotFound (name nspace : String)
  | duplicateParameterName (name : String)
  deriving Repr, DecidableEq

mutual

/-- Size measure for the nested document tree (for termination of the
recursive tree walks). -/
def nodeSize : DocumentNode → Nat
  | .str _ => 1
  | .int _ => 1
  | .bool _ => 1
  | .null => 1
  | .seq items => 1 + seqSize items
  | .map entries => 1 + entriesSize entries

def seqSize : List DocumentNode → Nat
  | [] => 0
  | x :: xs => 1 + nodeSize x + seqSize xs

def entriesSize : List (DocumentNode × DocumentNode) → Nat
  | [] => 0
  | (k, v) :: es => 1 + nodeSize k + nodeSize v + entriesSize es

end

/-- Modelled from the spec: resolved parameter values are opaque strings
for substitution purposes, tagged as plain or generated literals (the
`ParameterValue` enum re-exported by the crate; `Plain` is the variant the
tests use). -/
inductive ParameterValue where
  | Plain (value : String)
  | Generated (value : String)
  deriving Repr, DecidableEq

/-- The opaque string carried by a resolved parameter value. -/
def ParameterValue.raw : ParameterValue → String
  | .Plain s => s
  | .Generated s => s

/-- Mapping from parameter name to caller-supplied value (`ParameterValues`),
modelled as an association list with first-match lookup. -/
abbrev ParameterValues := List (String × ParameterValue)

/-- Modelled from the spec: a parameter declaration — `name`, optional
`description`, `required` flag (default false), `parameterType`, optional
literal default `value`, optional generation pattern `generate`.
(The crate's `parameter` module is not in the provided sources.) -/
structure ParameterDeclaration where
  name : String
  description : Option String := none
  required : Bool := false
  parameterType : Option String := none
  value : Option String := none
  generate : Option String := none
  deriving Repr, DecidableEq

/-- A `(name, namespace)` pair identifying an expected secret object
(the crate's `Secret` struct; the `namespace` field is spelled `nspace`
because `namespace` is a Lean keyword). -/
structure Secret where
  name : String
  nspace : String
  deriving Repr, DecidableEq

/-- The caller-supplied set of expected secret identities (`Secrets`),
modelled as a list. -/
abbrev Secrets := List Secret

/-- First-match lookup in the caller-supplied parameter values. -/
def lookupValue (values : ParameterValues) (n : String) : Option String :=
  (values.find? (fun p => p.fst = n)).map (fun p => p.snd.raw)

/-- First-match lookup in the resolved name-to-string parameter table. -/
def lookupTable (table : List (String × String)) (n : String) : Option String :=
  (table.find? (fun p => p.fst = n)).map (fun p => p.snd)

/-! ## Placeholder scanning and substitution over strings

Modelled from the spec: placeholder syntax is `$(NAME)`; if a scalar's
entire content is exactly `$(NAME)` the replacement adopts the value's
resolved type as a literal scalar, otherwise each `$(NAME)` occurrence
inside the larger string is replaced in place; a placeholder referencing
an unresolved name is an `UnknownParameterReference` failure.  An
unterminated `$(` (no closing parenthesis) is not a placeholder and is
copied to the output verbatim. -/

/-- Split a character list at the first `)`: returns the characters
before it and the remainder after it, or `none` if there is no `)`. -/
def splitAtParen : List Char → Option (List Char × List Char)
  | [] => none
  | c :: rest =>
      if c = ')' then some ([], rest)
      else (splitAtParen rest).map (fun p => (c :: p.fst, p.snd))

theorem splitAtParen_length {cs : List Char} {n r : List Char}
    (h : splitAtParen cs = some (n, r)) : r.length < cs.length := by
  induction cs generalizing n r with
  | nil => simp [splitAtParen] at h
  | cons c rest ih =>
      simp only [splitAtParen] at h
      split at h
      · simp only [Option.some.injEq, Prod.mk.injEq] at h
        obtain ⟨rfl, rfl⟩ := h
        simp
      · cases hsp : splitAtParen rest with
        | none => simp [hsp] at h
        | some p =>
            simp only [hsp, Option.map_some, Option.some.injEq, Prod.mk.injEq] at h
            obtain ⟨_, rfl⟩ := h
            have hlt := @ih p.fst p.snd (by simp [hsp])
            simpa using Nat.lt_succ_of_lt hlt

/-- One-pass, left-to-right in-place substitution of `$(NAME)` occurrences
inside a string (the string-concatenation case).  The characters of a
resolved value are inserted verbatim and are not rescanned. -/
def substChars (table : List (String × String)) : List Char → Except KtmplError (List Char)
  | '$' :: '(' :: rest =>
      match h : splitAtParen rest with
      | some (nm, rest') =>
          match lookupTable table (String.mk nm) with
          | some v => do
              let t ← substChars table rest'
              .ok (v.data ++ t)
          | none => .error (.unknownParameterReference (String.mk nm))
      | none => .ok ('$' :: '(' :: rest)
  | c :: rest => do
      let t ← substChars table rest
      .ok (c :: t)
  | [] => .ok []
  termination_by cs => cs.length
  decreasing_by
  · have := splitAtParen_length h
    simp only [List.length_cons]
    omega
  · simp

/-- Unfolding lemmas for the `Except` monad, used to evaluate the engine
on concrete inputs. -/
theorem except_bind_ok {ε α β : Type} (a : α) (f : α → Except ε β) :
    (Except.ok a >>= f) = f a := rfl

theorem except_bind_error {ε α β : Type} (e : ε) (f : α → Except ε β) :
    ((Except.error e : Except ε α) >>= f) = Except.error e := rfl

/-! ## Typed re-parsing of a whole-scalar replacement

Modelled from the spec: when a scalar is exactly `$(NAME)`, the
replacement "adopts the value's resolved type as a literal scalar
(e.g., numeric-looking values remain unquoted)". -/

/-- Accumulate a decimal digit string into a number; `none` when the list
is empty or contains a non-digit. -/
def digitsToNat : List Char → Option Nat
  | [] => none
  | cs => go cs 0
where
  go : List Char → Nat → Option Nat
    | [], acc => some acc
    | c :: rest, acc =>
        if '0' ≤ c ∧ c ≤ '9' then go rest (acc * 10 + (c.toNat - 48))
        else none

/-- Parse an optionally-negated decimal integer. -/
def parseInt : List Char → Option Int
  | '-' :: rest => (digitsToNat rest).map (fun n => -(n : Int))
  | cs => (digitsToNat cs).map (fun n => (n : Int))

/-- Re-parse a resolved value as a literal scalar, adopting its resolved
type: integer-looking values become integer scalars, `true`/`false`
booleans, `null`/`~` null, anything else a string scalar. -/
def typedScalar (v : String) : DocumentNode :=
  match parseInt v.data with
  | some z => .int z
  | none =>
      if v = "true" then .bool true
      else if v = "false" then .bool false
      else if v = "null" ∨ v = "~" then .null
      else .str v

/-- Recognize a scalar whose entire content is exactly `$(NAME)`:
returns `NAME` in that case. -/
def parseWhole : List Char → Option (List Char)
  | '$' :: '(' :: rest =>
      match splitAtParen rest with
      | some (nm, []) => some nm
      | _ => none
  | _ => none

/-- Substitute placeholders in one string scalar: whole-scalar matches
adopt the value's resolved type, otherwise in-place string substitution. -/
def substScalar (table : List (String × String)) (s : String) :
    Except KtmplError DocumentNode :=
  match parseWhole s.data with
  | some nm =>
      match lookupTable table (String.mk nm) with
      | some v => .ok (typedScalar v)
      | none => .error (.unknownParameterReference (String.mk nm))
  | none => do
      let t ← substChars table s.data
      .ok (.str (String.mk t))

mutual

/-- Recursive placeholder substitution over the document tree: applies to
every string-valued scalar, including mapping keys, sequence elements
and nested scalars at any depth; non-string scalars are unchanged. -/
def substNode (table : List (String × String)) :
    DocumentNode → Except KtmplError DocumentNode
  | .str s => substScalar table s
  | .int n => .ok (.int n)
  | .bool b => .ok (.bool b)
  | .null => .ok .null
  | .seq items => do
      let items' ← substSeq table items
      .ok (.seq items')
  | .map entries => do
      let entries' ← substEntries table entries
      .ok (.map entries')

/-- Substitution over a sequence of nodes. -/
def substSeq (table : List (String × String)) :
    List DocumentNode → Except KtmplError (List DocumentNode)
  | [] => .ok []
  | x :: xs => do
      let x' ← substNode table x
      let xs' ← substSeq table xs
      .ok (x' :: xs')

/-- Substitution over mapping entries: both key and value are rewritten. -/
def substEntries (table : List (String × String)) :
    List (DocumentNode × DocumentNode) →
      Except KtmplError (List (DocumentNode × DocumentNode))
  | [] => .ok []
  | (k, v) :: es => do
      let k' ← substNode table k
      let v' ← substNode table v
      let es' ← substEntries table es
      .ok ((k', v') :: es')

end

/-! ## UTF-8 and base64

Modelled from the spec: for each matched secret object, every entry under
its `data` mapping has its scalar string value replaced by the base64
encoding of the string's raw (UTF-8) bytes. -/

/-- UTF-8 encoding of a single character (bytes as `Nat`s below 256). -/
def utf8EncodeChar (c : Char) : List Nat :=
  let n := c.toNat
  if n < 128 then [n]
  else if n < 2048 then [192 + n / 64, 128 + n % 64]
  else if n < 65536 then [224 + n / 4096, 128 + n / 64 % 64, 128 + n % 64]
  else [240 + n / 262144, 128 + n / 4096 % 64, 128 + n / 64 % 64, 128 + n % 64]

/-- The raw UTF-8 bytes of a string's characters. -/
def utf8Bytes : List Char → List Nat
  | [] => []
  | c :: cs => utf8EncodeChar c ++ utf8Bytes cs

/-- The base64 alphabet. -/
def base64Alphabet : List Char :=
  "ABCDEFGHIJKLMNOPQRSTUVWXYZabcdefghijklmnopqrstuvwxyz0123456789+/".data

/-- The character for a six-bit group. -/
def sextetToChar (n : Nat) : Char := base64Alphabet.getD n 'A'

/-- The six-bit value of a base64 character. -/
def charToSextet (c : Char) : Nat := base64Alphabet.indexOf c

/-- Standard base64 encoding of a byte list (with `=` padding). -/
def base64EncodeChars : List Nat → List Char
  | [] => []
  | [a] =>
      [sextetToChar (a / 4), sextetToChar (a % 4 * 16), '=', '=']
  | [a, b] =>
      [sextetToChar (a / 4), sextetToChar (a % 4 * 16 + b / 16),
       sextetToChar (b % 16 * 4), '=']
  | a :: b :: d :: rest =>
      sextetToChar (a / 4) :: sextetToChar (a % 4 * 16 + b / 16) ::
      sextetToChar (b % 16 * 4 + d / 64) :: sextetToChar (d % 64) ::
      base64EncodeChars rest

/-- Base64 encoding of a byte list, as a string. -/
def base64Encode (bytes : List Nat) : String :=
  String.mk (base64EncodeChars bytes)

/-- Standard base64 decoding (inverse of `base64EncodeChars` on its
range; other inputs are best-effort). -/
def base64DecodeChars : List Char → List Nat
  | c1 :: c2 :: c3 :: c4 :: rest =>
      if c3 = '=' then
        [charToSextet c1 * 4 + charToSextet c2 / 16]
      else if c4 = '=' then
        [charToSextet c1 * 4 + charToSextet c2 / 16,
         charToSextet c2 % 16 * 16 + charToSextet c3 / 4]
      else
        (charToSextet c1 * 4 + charToSextet c2 / 16) ::
        (charToSextet c2 % 16 * 16 + charToSextet c3 / 4) ::
        (charToSextet c3 % 4 * 64 + charToSextet c4) ::
        base64DecodeChars rest
  | _ => []

/-- Base64 decoding of a string to its byte list. -/
def base64Decode (s : String) : List Nat := base64DecodeChars s.data

theorem charToSextet_sextetToChar {n : Nat} (h : n < 64) :
    charToSextet (sextetToChar n) = n := by
  interval_cases n <;> rfl

theorem sextetToChar_ne_eq {n : Nat} (h : n < 64) : sextetToChar n ≠ '=' := by
  interval_cases n <;> simp [sextetToChar, base64Alphabet]

theorem decode_pad2 (c1 c2 : Char) :
    base64DecodeChars [c1, c2, '=', '='] =
      [charToSextet c1 * 4 + charToSextet c2 / 16] := by
  simp [base64DecodeChars]

theorem decode_pad1 (c1 c2 c3 : Char) (h : c3 ≠ '=') :
    base64DecodeChars [c1, c2, c3, '='] =
      [charToSextet c1 * 4 + charToSextet c2 / 16,
       charToSextet c2 % 16 * 16 + charToSextet c3 / 4] := by
  simp [base64DecodeChars, h]

theorem decode_full (c1 c2 c3 c4 : Char) (rest : List Char)
    (h3 : c3 ≠ '=') (h4 : c4 ≠ '=') :
    base64DecodeChars (c1 :: c2 :: c3 :: c4 :: rest) =
      (charToSextet c1 * 4 + charToSextet c2 / 16) ::
      (charToSextet c2 % 16 * 16 + charToSextet c3 / 4) ::
      (charToSextet c3 % 4 * 64 + charToSextet c4) ::
      base64DecodeChars rest := by
  simp [base64DecodeChars, h3, h4]

/-- Round-trip law: decoding the base64 encoding of any byte list
recovers it exactly. -/
theorem base64_roundtrip (bytes : List Nat) (h : ∀ b ∈ bytes, b < 256) :
    base64DecodeChars (base64EncodeChars bytes) = bytes := by
  induction bytes using base64EncodeChars.induct with
  | case1 => rfl
  | case2 a =>
      have ha : a < 256 := h a (by simp)
      rw [base64EncodeChars, decode_pad2]
      rw [charToSextet_sextetToChar (by omega), charToSextet_sextetToChar (by omega)]
      simp only [List.cons.injEq, and_true]
      omega
  | case3 a b =>
      have ha : a < 256 := h a (by simp)
      have hb : b < 256 := h b (by simp)
      rw [base64EncodeChars, decode_pad1 _ _ _ (sextetToChar_ne_eq (by omega))]
      rw [charToSextet_sextetToChar (by omega), charToSextet_sextetToChar (by omega),
        charToSextet_sextetToChar (by omega)]
      simp only [List.cons.injEq, and_true]
      omega
  | case4 a b d rest ih =>
      have ha : a < 256 := h a (by simp)
      have hb : b < 256 := h b (by simp)
      have hd : d < 256 := h d (by simp)
      rw [base64EncodeChars,
        decode_full _ _ _ _ _ (sextetToChar_ne_eq (by omega))
          (sextetToChar_ne_eq (by omega))]
      rw [charToSextet_sextetToChar (by omega), charToSextet_sextetToChar (by omega),
        charToSextet_sextetToChar (by omega), charToSextet_sextetToChar (by omega)]
      rw [ih (fun x hx => h x (by simp [hx]))]
      simp only [List.cons.injEq, and_true]
      refine ⟨by omega, by omega, by omega⟩

/-- Every byte produced by the UTF-8 encoder is below 256. -/
theorem utf8Bytes_lt (cs : List Char) : ∀ b ∈ utf8Bytes cs, b < 256 := by
  induction cs with
  | nil => simp [utf8Bytes]
  | cons c cs ih =>
      intro b hb
      simp only [utf8Bytes, List.mem_append] at hb
      rcases hb with hb | hb
      · have hc : c.toNat < 1114112 := by
          have hv := c.valid
          simp only [Char.toNat]
          rcases hv with h | h
          · omega
          · omega
        simp only [utf8EncodeChar] at hb
        split at hb <;> [skip; split at hb] <;> [skip; skip; split at hb] <;>
          simp_all <;> omega
      · exact ih b hb

/-! ## Parameter resolution

Modelled from the spec: for each declaration, resolution order is
(1) caller-supplied value, (2) literal default, (3) generated value,
(4) if `required` and none apply, fail with `MissingRequiredParameter`;
a not-required declaration with no value simply stays out of the table.
The generation interface is a caller-provided function from the declared
pattern to a synthesized value (isolating the randomness source). -/

/-- Resolve one declaration to an optional table entry. -/
def resolveParam (values : ParameterValues) (gen : String → String)
    (d : ParameterDeclaration) : Except KtmplError (Option (String × String)) :=
  match lookupValue values d.name with
  | some v => .ok (some (d.name, v))
  | none =>
      match d.value with
      | some v => .ok (some (d.name, v))
      | none =>
          match d.generate with
          | some pat => .ok (some (d.name, gen pat))
          | none =>
              if d.required then .error (.missingRequiredParameter d.name)
              else .ok none

/-- Resolve all declarations, in order, into the name-to-value table. -/
def resolveParams (values : ParameterValues) (gen : String → String) :
    List ParameterDeclaration → Except KtmplError (List (String × String))
  | [] => .ok []
  | d :: ds => do
      let entry ← resolveParam values gen d
      let rest ← resolveParams values gen ds
      .ok (entry.toList ++ rest)

/-! ## Secret matching and encoding

Modelled from the spec: after substitution, every object whose `kind`
equals `Secret` has identity `(metadata.name, metadata.namespace or
"default")`; every caller-declared secret identity must match an object
(otherwise `SecretNotFound`); for each matched secret object every string
entry under its `data` mapping is base64-encoded, keys untouched. -/

/-- Look up a string key in a mapping node's entries (first match). -/
def lookupEntries : List (DocumentNode × DocumentNode) → String → Option DocumentNode
  | [], _ => none
  | (k, v) :: rest, key =>
      match k with
      | .str s => if s = key then some v else lookupEntries rest key
      | _ => lookupEntries rest key

/-- Look up a string key in a node, when that node is a mapping. -/
def DocumentNode.lookup? (o : DocumentNode) (key : String) : Option DocumentNode :=
  match o with
  | .map es => lookupEntries es key
  | _ => none

/-- Is this node the string scalar `s`? -/
def isKey (k : DocumentNode) (s : String) : Bool :=
  match k with
  | .str t => t = s
  | _ => false

/-- Does the object declare the secret kind? -/
def isSecretKind (o : DocumentNode) : Bool :=
  match o.lookup? "kind" with
  | some (.str s) => s = "Secret"
  | _ => false

/-- The object's `metadata.name`, when present as a string. -/
def objName (o : DocumentNode) : Option String :=
  match o.lookup? "metadata" with
  | some md =>
      match md.lookup? "name" with
      | some (.str s) => some s
      | _ => none
  | none => none

/-- The object's `metadata.namespace`, defaulting to `"default"`. -/
def objNamespace (o : DocumentNode) : String :=
  match o.lookup? "metadata" with
  | some md =>
      match md.lookup? "namespace" with
      | some (.str s) => s
      | _ => "default"
  | none => "default"

/-- Does the (substituted) object match a declared secret identity? -/
def matchesSecret (s : Secret) (o : DocumentNode) : Bool :=
  isSecretKind o && objName o = some s.name && objNamespace o = s.nspace

/-- Base64-encode a payload scalar: string values are replaced by the
base64 encoding of their raw UTF-8 bytes, other values are untouched. -/
def encodeValue : DocumentNode → DocumentNode
  | .str s => .str (base64Encode (utf8Bytes s.data))
  | v => v

/-- Encode every entry of the payload (`data`) mapping, keys untouched. -/
def encodeData : DocumentNode → DocumentNode
  | .map es => .map (es.map (fun e => (e.fst, encodeValue e.snd)))
  | v => v

/-- Encode one top-level entry of a secret object: the `data` entry's
payload is encoded, every other entry is untouched. -/
def encodeEntry (e : DocumentNode × DocumentNode) : DocumentNode × DocumentNode :=
  if isKey e.fst "data" then (e.fst, encodeData e.snd) else e

/-- Encode the `data` entries of one matched secret object. -/
def encodeObject : DocumentNode → DocumentNode
  | .map es => .map (es.map encodeEntry)
  | o => o

/-- Match the declared secrets against the substituted objects and encode
the matched secret objects; an unmatched declared identity is a
`SecretNotFound` failure. -/
def encodeSecrets (secrets : Secrets) (objs : List DocumentNode) :
    Except KtmplError (List DocumentNode) :=
  match secrets.find? (fun s => !objs.any (matchesSecret s)) with
  | some s => .error (.secretNotFound s.name s.nspace)
  | none =>
      .ok (objs.map (fun o => if secrets.any (fun s => matchesSecret s o) then encodeObject o else o))

/-! ## Rendering

Modelled from the spec: the final tree is serialized by standard
structured-document emission — one `---`-delimited document per entry of
the `objects` sequence, in order, with trailing whitespace trimmed per
line.  (The emitter belongs to the source ecosystem's YAML library and is
not part of the provided sources; only the properties stated in the spec
— the `---` document markers and per-line trimming — are relied on.) -/

/-- A run of `n` spaces. -/
def indentChars : Nat → List Char
  | 0 => []
  | n + 1 => ' ' :: indentChars n

/-- Decimal digit character. -/
def digitChar (n : Nat) : Char :=
  match n with
  | 0 => '0' | 1 => '1' | 2 => '2' | 3 => '3' | 4 => '4'
  | 5 => '5' | 6 => '6' | 7 => '7' | 8 => '8' | _ => '9'

/-- Decimal digits of a natural number (fuel-driven). -/
def natDigitsAux : Nat → Nat → List Char
  | 0, _ => []
  | fuel + 1, n => if n = 0 then [] else natDigitsAux fuel (n / 10) ++ [digitChar (n % 10)]

/-- Decimal representation of a natural number. -/
def natRepr (n : Nat) : List Char :=
  if n = 0 then ['0'] else natDigitsAux (n + 1) n

/-- Decimal representation of an integer. -/
def intRepr : Int → List Char
  | .ofNat n => natRepr n
  | .negSucc n => '-' :: natRepr (n + 1)

/-- The flat text of a scalar node (non-scalars give an empty rendering;
they are emitted structurally by `emitLines`). -/
def scalarChars : DocumentNode → List Char
  | .str s => s.data
  | .int n => intRepr n
  | .bool b => if b then "true".data else "false".data
  | .null => ['~']
  | _ => []

/-- Is the node a scalar (emitted inline)? -/
def isScalar : DocumentNode → Bool
  | .str _ => true
  | .int _ => true
  | .bool _ => true
  | .null => true
  | _ => false

mutual

/-- Emit a node as a list of raw lines at the given indentation. -/
def emitLines (indent : Nat) : DocumentNode → List (List Char)
  | .str s => [indentChars indent ++ s.data]
  | .int n => [indentChars indent ++ intRepr n]
  | .bool b => [indentChars indent ++ (if b then "true".data else "false".data)]
  | .null => [indentChars indent ++ ['~']]
  | .seq items => emitSeq indent items
  | .map entries => emitEntries indent entries

/-- Emit sequence items as `- item` lines. -/
def emitSeq (indent : Nat) : List DocumentNode → List (List Char)
  | [] => []
  | x :: xs =>
      (if isScalar x then
        [indentChars indent ++ '-' :: ' ' :: scalarChars x]
      else
        (indentChars indent ++ ['-']) :: emitLines (indent + 2) x) ++
      emitSeq indent xs

/-- Emit mapping entries as `key: value` lines (nested values as an
indented block on the following lines). -/
def emitEntries (indent : Nat) : List (DocumentNode × DocumentNode) → List (List Char)
  | [] => []
  | (k, v) :: es =>
      (if isScalar v then
        [indentChars indent ++ scalarChars k ++ ':' :: ' ' :: scalarChars v]
      else
        (indentChars indent ++ scalarChars k ++ [':']) :: emitLines (indent + 2) v) ++
      emitEntries indent es

end

/-- Split a character list into lines at `'\n'`. -/
def splitLines : List Char → List (List Char)
  | [] => [[]]
  | c :: rest =>
      if c = '\n' then [] :: splitLines rest
      else
        match splitLines rest with
        | l :: ls => (c :: l) :: ls
        | [] => [[c]]

/-- Join lines with `'\n'` separators. -/
def joinLines : List (List Char) → List Char
  | [] => []
  | [l] => l
  | l :: ls => l ++ '\n' :: joinLines ls

/-- Is the character a space or tab? -/
def isWS (c : Char) : Bool := c = ' ' || c = '\t'

/-- Trim trailing spaces and tabs from a line. -/
def trimR (l : List Char) : List Char := (l.reverse.dropWhile isWS).reverse

/-- The final lines of the rendered output: each raw emitted line is
re-split at embedded newlines and trimmed of trailing whitespace. -/
def renderLines (objs : List DocumentNode) : List (List Char) :=
  ((objs.flatMap (fun o => "---".data :: emitLines 0 o)).flatMap splitLines).map trimR

/-- Serialize the final object trees to the rendered output text. -/
def render (objs : List DocumentNode) : String :=
  String.mk (joinLines (renderLines objs))

/-! ## Template loading and processing

Modelled from the spec: the Document Loader parses the template source
into a tree with mandatory top-level `objects` and `parameters` keys
(`ParseError` otherwise); each parameter declaration is a mapping with a
mandatory string `name`, an optional `required` boolean (treated as not
required when omitted), an optional literal `value`, an optional
`generate` pattern and optional `description`/`parameterType`; duplicate
parameter names are a distinct load-time `DuplicateParameterName` error.
`process()` then resolves parameters, substitutes, matches/encodes
secrets and renders, aborting on the first error. -/

/-- The string content of a scalar declaration field. -/
def scalarString : DocumentNode → Option String
  | .str s => some s
  | .int n => some (String.mk (intRepr n))
  | .bool b => some (if b then "true" else "false")
  | _ => none

/-- Parse one parameter declaration from its mapping node. -/
def parseDecl (dm : DocumentNode) : Except KtmplError ParameterDeclaration := do
  let nm ← match dm.lookup? "name" with
    | some (.str s) => .ok s
    | _ => .error (.parseError "parameter declaration requires a string name")
  let req ← match dm.lookup? "required" with
    | none => .ok false
    | some (.bool b) => .ok b
    | some _ => .error (.parseError "required must be a boolean")
  let val ← match dm.lookup? "value" with
    | none => .ok none
    | some v =>
        match scalarString v with
        | some s => .ok (some s)
        | none => .error (.parseError "value must be a scalar")
  let gen ← match dm.lookup? "generate" with
    | none => .ok none
    | some (.str s) => .ok (some s)
    | some _ => .error (.parseError "generate must be a string")
  let desc := match dm.lookup? "description" with
    | some (.str s) => some s
    | _ => none
  let pt := match dm.lookup? "parameterType" with
    | some (.str s) => some s
    | _ => none
  .ok { name := nm, description := desc, required := req,
        parameterType := pt, value := val, generate := gen }

/-- Parse the whole `parameters` sequence. -/
def parseDecls : List DocumentNode → Except KtmplError (List ParameterDeclaration)
  | [] => .ok []
  | dm :: rest => do
      let d ← parseDecl dm
      let ds ← parseDecls rest
      .ok (d :: ds)

/-- First parameter name declared more than once, if any. -/
def findDup : List String → Option String
  | [] => none
  | n :: rest => if n ∈ rest then some n else findDup rest

/-- The parsed template: objects, parameter declarations, the
caller-supplied values and the optional expected-secrets set. -/
structure Template where
  objects : List DocumentNode
  parameters : List ParameterDeclaration
  values : ParameterValues
  secrets : Option Secrets

/-- Load a template from its parsed document tree, the caller-supplied
parameter values and the optional secrets set (`Template::new`): checks
the mandatory top-level structure, parses the declarations and rejects
duplicate parameter names at load time. -/
def Template.new (doc : DocumentNode) (values : ParameterValues)
    (secrets : Option Secrets) : Except KtmplError Template := do
  let objs ← match doc.lookup? "objects" with
    | some (.seq objs) => .ok objs
    | _ => .error (.parseError "template requires an objects sequence")
  let pdocs ← match doc.lookup? "parameters" with
    | some (.seq ps) => .ok ps
    | _ => .error (.parseError "template requires a parameters sequence")
  let decls ← parseDecls pdocs
  match findDup (decls.map (fun d => d.name)) with
  | some n => .error (.duplicateParameterName n)
  | none => .ok { objects := objs, parameters := decls,
                  values := values, secrets := secrets }

/-- The secret stage with an optional secrets set: a no-op pass-through
when no set is supplied. -/
def encodeSecretsOpt : Option Secrets → List DocumentNode →
    Except KtmplError (List DocumentNode)
  | none, objs => .ok objs
  | some ss, objs => encodeSecrets ss objs

/-- Process the template (`Template::process`): resolve the parameters,
substitute placeholders throughout the objects, match and encode secrets,
and render; the first error aborts the pipeline. -/
def Template.process (t : Template) (gen : String → String) :
    Except KtmplError String := do
  let table ← resolveParams t.values gen t.parameters
  let objs ← substSeq table t.objects
  let objs₂ ← encodeSecretsOpt t.secrets objs
  .ok (render objs₂)

/-! ## Concrete templates from the crate's test suite -/

/-- The parsed document tree of the `process_keys` test template:
`objects: [{ $(FOO): bar }]`, `parameters: [{name: FOO, value: baz}]`. -/
def processKeysTemplate : DocumentNode :=
  .map [(.str "objects", .seq [.map [(.str "$(FOO)", .str "bar")]]),
        (.str "parameters",
         .seq [.map [(.str "name", .str "FOO"), (.str "value", .str "baz")]])]

/-- A trivial generation function (generation is unused by the tests). -/
def gen0 : String → String := fun _ => ""

/-- The `process_keys` test, end to end: loading the template with an
empty value mapping and processing renders the expected output. -/
theorem processKeysTemplate_run :
    (Template.new processKeysTemplate [] none).bind (fun t => t.process gen0) =
      .ok "---\nbaz: bar" := by
  simp [Template.new, Template.process, processKeysTemplate, DocumentNode.lookup?,
    lookupEntries, parseDecls, parseDecl, findDup, resolveParams, resolveParam,
    lookupValue, List.find?, gen0, substSeq, substNode, substEntries, substScalar,
    substChars, parseWhole, splitAtParen, lookupTable, typedScalar, parseInt,
    digitsToNat, digitsToNat.go, render, renderLines, emitLines, emitEntries,
    isScalar, scalarChars, indentChars, splitLines, joinLines, trimR,
    List.dropWhile, isWS, except_bind_ok, Except.bind, scalarString,
    Option.toList, encodeSecretsOpt, ParameterValue.raw]

/-- The parsed document tree of the `encode_secrets` test template. -/
def encodeSecretsTemplate : DocumentNode :=
  .map [(.str "kind", .str "Template"),
        (.str "apiVersion", .str "v1"),
        (.str "metadata", .map [(.str "name", .str "example")]),
        (.str "objects",
         .seq [.map [(.str "kind", .str "Secret"),
                     (.str "apiVersion", .str "v1"),
                     (.str "metadata", .map [(.str "name", .str "webapp")]),
                     (.str "data",
                      .map [(.str "config.yml",
                             .str "username: \"carl\"\npassword: \"$(PASSWORD)\"\n")]),
                     (.str "type", .str "Opaque")]]),
        (.str "parameters",
         .seq [.map [(.str "name", .str "PASSWORD"),
                     (.str "description", .str "The password for the web app"),
                     (.str "required", .bool true),
                     (.str "parameterType", .str "string")]])]

/-- The `encode_secrets` test, end to end: the rendered output matches
the crate's expected text, including the exact base64 payload. -/
theorem encodeSecretsTemplate_run :
    (Template.new encodeSecretsTemplate [("PASSWORD", .Plain "narble")]
        (some [{ name := "webapp", nspace := "default" }])).bind
      (fun t => t.process gen0) =
      .ok ("---\nkind: Secret\napiVersion: v1\nmetadata:\n  name: webapp\n" ++
        "data:\n  config.yml: dXNlcm5hbWU6ICJjYXJsIgpwYXNzd29yZDogIm5hcmJsZSIK\n" ++
        "type: Opaque") := by
  simp [Template.new, Template.process, encodeSecretsTemplate, DocumentNode.lookup?,
    lookupEntries, parseDecls, parseDecl, findDup, resolveParams, resolveParam,
    lookupValue, List.find?, gen0, substSeq, substNode, substEntries, substScalar,
    substChars, parseWhole, splitAtParen, lookupTable, typedScalar, parseInt,
    digitsToNat, digitsToNat.go, render, renderLines, emitLines, emitEntries,
    isScalar, scalarChars, indentChars, splitLines, joinLines, trimR,
    List.dropWhile, isWS, except_bind_ok, Except.bind, scalarString,
    Option.toList, encodeSecrets, matchesSecret, isSecretKind, objName,
    objNamespace, encodeObject, encodeData, encodeValue, isKey, List.any,
    encodeSecretsOpt, ParameterValue.raw]
  decide

/-! ## General lemmas about substitution -/

theorem splitAtParen_append (nm rest : List Char) (h : ')' ∉ nm) :
    splitAtParen (nm ++ ')' :: rest) = some (nm, rest) := by
  induction nm with
  | nil => simp [splitAtParen]
  | cons c nm ih =>
      have hc : c ≠ ')' := by intro hc; exact h (by simp [hc])
      simp only [List.cons_append, splitAtParen, if_neg hc]
      show Option.map (fun p => (c :: p.1, p.2)) (splitAtParen (nm ++ ')' :: rest)) =
        some (c :: nm, rest)
      rw [ih (fun hm => h (by simp [hm]))]
      rfl

theorem parseWhole_placeholder (nm : List Char) (h : ')' ∉ nm) :
    parseWhole ('$' :: '(' :: (nm ++ [')'])) = some nm := by
  have : splitAtParen (nm ++ ')' :: []) = some (nm, []) := splitAtParen_append nm [] h
  simp [parseWhole, this]

/-- Whole-scalar substitution: a scalar that is exactly a placeholder is
replaced by the typed re-parse of the resolved value. -/
theorem substScalar_whole (table : List (String × String)) (nm v : String)
    (hn : ')' ∉ nm.data) (hv : lookupTable table nm = some v) :
    substScalar table ("$(" ++ nm ++ ")") = .ok (typedScalar v) := by
  have hdata : ("$(" ++ nm ++ ")").data = '$' :: '(' :: (nm.data ++ [')']) := by
    simp [String.data_append]
  rw [substScalar, hdata, parseWhole_placeholder nm.data hn]
  have hmk : (String.mk nm.data) = nm := rfl
  simp only [hmk, hv]

/-- Substitution over the entries of a mapping rewrites every key and
every value. -/
theorem substEntries_mem (table : List (String × String))
    (es es' : List (DocumentNode × DocumentNode)) (k v : DocumentNode)
    (hok : substEntries table es = .ok es') (hmem : (k, v) ∈ es) :
    ∃ k' v', (k', v') ∈ es' ∧ substNode table k = .ok k' ∧
      substNode table v = .ok v' := by
  induction es generalizing es' with
  | nil => simp at hmem
  | cons e es ih =>
      obtain ⟨k₀, v₀⟩ := e
      rw [substEntries] at hok
      cases hk : substNode table k₀ with
      | error _ => rw [hk] at hok; exact absurd hok (by simp [except_bind_error])
      | ok k₀' =>
          rw [hk, except_bind_ok] at hok
          cases hv : substNode table v₀ with
          | error _ => rw [hv] at hok; exact absurd hok (by simp [except_bind_error])
          | ok v₀' =>
              rw [hv, except_bind_ok] at hok
              cases hes : substEntries table es with
              | error _ => rw [hes] at hok; exact absurd hok (by simp [except_bind_error])
              | ok es₀ =>
                  rw [hes, except_bind_ok] at hok
                  obtain rfl : (k₀', v₀') :: es₀ = es' := by
                    simpa using hok
                  rcases List.mem_cons.mp hmem with heq | hmem'
                  · obtain ⟨rfl, rfl⟩ : k = k₀ ∧ v = v₀ := Prod.mk.injEq .. ▸ by
                      simpa using heq
                    exact ⟨k₀', v₀', by simp, hk, hv⟩
                  · obtain ⟨k', v', hm, h1, h2⟩ := ih es₀ hes hmem'
                    exact ⟨k', v', by simp [hm], h1, h2⟩

theorem substNode_map (table : List (String × String))
    (es : List (DocumentNode × DocumentNode)) (res : DocumentNode)
    (hok : substNode table (.map es) = .ok res) :
    ∃ es', res = .map es' ∧ substEntries table es = .ok es' := by
  rw [substNode] at hok
  cases hes : substEntries table es with
  | error _ => rw [hes] at hok; exact absurd hok (by simp [except_bind_error])
  | ok es' =>
      rw [hes, except_bind_ok] at hok
      exact ⟨es', by simpa using hok.symm, rfl⟩

/-- Does the character list contain an occurrence of `$(` (the start of a
placeholder)? -/
def hasPP : List Char → Bool
  | '$' :: '(' :: _ => true
  | _ :: rest => hasPP rest
  | [] => false

theorem hasPP_cons (c : Char) (rest : List Char) :
    hasPP (c :: rest) = true ↔
      (c = '$' ∧ rest.head? = some '(') ∨ hasPP rest = true := by
  rw [hasPP.eq_def]
  constructor
  · intro h
    split at h
    · rename_i tl heq
      injection heq with h1 h2
      exact Or.inl ⟨h1, by rw [h2]; rfl⟩
    · rename_i hno heq
      injection heq with h1 h2
      subst h2
      exact Or.inr h
    · simp_all
  · intro h
    split
    · rfl
    · rename_i hno heq
      injection heq with h1 h2
      subst h1
      subst h2
      rcases h with ⟨rfl, hh⟩ | hh
      · cases rest with
        | nil => simp at hh
        | cons c2 tl =>
            simp only [List.head?_cons, Option.some.injEq] at hh
            exact (hno tl rfl (by rw [hh])).elim
      · exact hh
    · rename_i heq
      exact absurd heq (by simp)

/-- Copy step: a character that does not open a placeholder is copied to
the output unchanged. -/
theorem substChars_copy (table : List (String × String)) (c : Char)
    (rest : List Char) (h : ¬(c = '$' ∧ rest.head? = some '(')) :
    substChars table (c :: rest) =
      (substChars table rest).map (fun t => c :: t) := by
  rw [substChars.eq_def]
  split
  · rename_i rest' heq
    injection heq with h1 h2
    exact absurd ⟨h1, by rw [h2]; rfl⟩ h
  · rename_i heq hno
    injection hno with h1 h2
    subst h1
    subst h2
    cases hs : substChars table rest <;>
      simp [hs, Except.map, bind, Except.bind]
  · simp_all

/-- Placeholder step: a resolved `$(NAME)` occurrence is replaced by the
value's characters, and scanning continues after the closing paren. -/
theorem substChars_placeholder (table : List (String × String))
    (nm : List Char) (v : String) (q : List Char)
    (hn : ')' ∉ nm) (hv : lookupTable table (String.mk nm) = some v) :
    substChars table ('$' :: '(' :: (nm ++ ')' :: q)) =
      (substChars table q).map (fun t => v.data ++ t) := by
  rw [substChars.eq_def]
  split
  · rename_i nm1 rest' heq
    injection heq with h1 h2
    injection h2 with h2 h3
    subst h3
    split
    · rename_i nm2 rest2 heq2
      rw [splitAtParen_append nm q hn] at heq2
      injection heq2 with h4
      obtain ⟨rfl, rfl⟩ : nm = nm2 ∧ q = rest2 := Prod.mk.injEq .. ▸ by
        simpa using h4
      rw [hv]
      cases hs : substChars table q <;>
        simp [hs, Except.map, bind, Except.bind]
    · rename_i heq2
      rw [splitAtParen_append nm q hn] at heq2
      cases heq2
  · rename_i c2 r2 hno heq
    injection heq with h1 h2
    exact (hno (nm ++ ')' :: q) h1.symm h2.symm).elim
  · rename_i heq
    simp at heq

/-- Unknown-reference step: a `$(NAME)` occurrence whose name is not in
the resolved table aborts scanning with `UnknownParameterReference`. -/
theorem substChars_unknown (table : List (String × String))
    (nm : List Char) (q : List Char)
    (hn : ')' ∉ nm) (hv : lookupTable table (String.mk nm) = none) :
    substChars table ('$' :: '(' :: (nm ++ ')' :: q)) =
      .error (.unknownParameterReference (String.mk nm)) := by
  rw [substChars.eq_def]
  split
  · rename_i nm1 rest' heq
    injection heq with h1 h2
    injection h2 with h2 h3
    subst h3
    split
    · rename_i nm2 rest2 heq2
      rw [splitAtParen_append nm q hn] at heq2
      injection heq2 with h4
      obtain ⟨rfl, rfl⟩ : nm = nm2 ∧ q = rest2 := Prod.mk.injEq .. ▸ by
        simpa using h4
      rw [hv]
    · rename_i heq2
      rw [splitAtParen_append nm q hn] at heq2
      cases heq2
  · rename_i c2 r2 hno heq
    injection heq with h1 h2
    exact (hno (nm ++ ')' :: q) h1.symm h2.symm).elim
  · rename_i heq
    simp at heq

/-- Scanning a placeholder-free run of text copies it verbatim (provided
the boundary does not itself form a `$(`). -/
theorem substChars_clean_pre (table : List (String × String))
    (p rest : List Char) (hp : hasPP p = false)
    (hb : ¬(p.getLast? = some '$' ∧ rest.head? = some '(')) :
    substChars table (p ++ rest) =
      (substChars table rest).map (fun t => p ++ t) := by
  induction p with
  | nil =>
      cases hs : substChars table rest <;>
        simp [hs, Except.map]
  | cons c p ih =>
      have hstep : ¬(c = '$' ∧ (p ++ rest).head? = some '(') := by
        rintro ⟨rfl, hh⟩
        cases p with
        | nil =>
            exact hb ⟨rfl, by simpa using hh⟩
        | cons c2 tl =>
            simp only [List.cons_append, List.head?_cons, Option.some.injEq] at hh
            rw [show ('$' :: c2 :: tl : List Char) = '$' :: c2 :: tl from rfl] at hp
            rw [show hasPP ('$' :: c2 :: tl) = true from by
              rw [hasPP_cons]
              exact Or.inl ⟨rfl, by simp [hh]⟩] at hp
            simp at hp
      have hp' : hasPP p = false := by
        cases hpp : hasPP p with
        | false => rfl
        | true =>
            rw [show hasPP (c :: p) = true from (hasPP_cons c p).mpr (Or.inr hpp)] at hp
            simp at hp
      have hb' : ¬(p.getLast? = some '$' ∧ rest.head? = some '(') := by
        rintro ⟨hl, hh⟩
        cases p with
        | nil => simp at hl
        | cons c2 tl =>
            exact hb ⟨by simpa using hl, hh⟩
      rw [List.cons_append, substChars_copy table c (p ++ rest) hstep, ih hp' hb']
      cases hs : substChars table rest <;>
        simp [hs, Except.map]

/-- Every `$(` occurrence in the character list opens a well-formed
placeholder (it is followed by a closing parenthesis). -/
def wfPH : List Char → Bool
  | '$' :: '(' :: rest =>
      match h : splitAtParen rest with
      | some (nm, rest') => wfPH rest'
      | none => false
  | _ :: rest => wfPH rest
  | [] => true
  termination_by cs => cs.length
  decreasing_by
  · have := splitAtParen_length h
    simp only [List.length_cons]
    omega
  · simp

/-- A resolved value that cannot create a `$(` occurrence when spliced
into surrounding text: nonempty, free of `$(`, not starting with `(` and
not ending with `$`. -/
def cleanValue (v : String) : Bool :=
  !v.data.isEmpty && !hasPP v.data &&
    !(v.data.head? == some '(') && !(v.data.getLast? == some '$')

theorem splitAtParen_sound {cs nm r : List Char}
    (h : splitAtParen cs = some (nm, r)) : cs = nm ++ ')' :: r ∧ ')' ∉ nm := by
  induction cs generalizing nm r with
  | nil => simp [splitAtParen] at h
  | cons c rest ih =>
      simp only [splitAtParen] at h
      split at h
      · rename_i hc
        simp only [Option.some.injEq, Prod.mk.injEq] at h
        obtain ⟨rfl, rfl⟩ := h
        simp [hc]
      · rename_i hc
        cases hsp : splitAtParen rest with
        | none => simp [hsp] at h
        | some p =>
            simp only [hsp, Option.map_some, Option.some.injEq] at h
            obtain ⟨he, hm⟩ := @ih p.fst p.snd (by simp [hsp])
            obtain ⟨rfl, rfl⟩ : nm = c :: p.fst ∧ r = p.snd :=
              Prod.mk.injEq .. ▸ by simpa using h.symm
            refine ⟨by simp [he], ?_⟩
            simp only [List.mem_cons, not_or]
            exact ⟨fun hcc => hc hcc.symm, hm⟩

theorem wfPH_copy (c : Char) (rest : List Char)
    (h : ¬(c = '$' ∧ rest.head? = some '(')) : wfPH (c :: rest) = wfPH rest := by
  rw [wfPH.eq_def]
  split
  · rename_i rest' heq
    injection heq with h1 h2
    exact absurd ⟨h1, by rw [h2]; rfl⟩ h
  · rename_i heq hno
    injection hno with h1 h2
    subst h1
    subst h2
    rfl
  · simp_all

theorem wfPH_open (nm rest' : List Char) (hn : ')' ∉ nm) :
    wfPH ('$' :: '(' :: (nm ++ ')' :: rest')) = wfPH rest' := by
  rw [wfPH.eq_def]
  split
  · rename_i nm1 r1 heq
    injection heq with h1 h2
    injection h2 with h2 h3
    subst h3
    split
    · rename_i nm2 r2 heq2
      rw [splitAtParen_append nm rest' hn] at heq2
      injection heq2 with h4
      obtain ⟨rfl, rfl⟩ : nm = nm2 ∧ rest' = r2 := Prod.mk.injEq .. ▸ by
        simpa using h4
      rfl
    · rename_i heq2
      rw [splitAtParen_append nm rest' hn] at heq2
      cases heq2
  · rename_i c2 r2 hno heq
    injection heq with h1 h2
    exact (hno (nm ++ ')' :: rest') h1.symm h2.symm).elim
  · rename_i heq
    simp at heq

/-- Splicing a clean run into placeholder-free text cannot create `$(`. -/
theorem hasPP_append (v w : List Char) (hv : hasPP v = false)
    (hw : hasPP w = false)
    (hb : ¬(v.getLast? = some '$' ∧ w.head? = some '(')) :
    hasPP (v ++ w) = false := by
  induction v with
  | nil => simpa using hw
  | cons c v ih =>
      have hstep : ¬(c = '$' ∧ (v ++ w).head? = some '(') := by
        rintro ⟨rfl, hh⟩
        cases v with
        | nil => exact hb ⟨rfl, by simpa using hh⟩
        | cons c2 tl =>
            simp only [List.cons_append, List.head?_cons, Option.some.injEq] at hh
            have : hasPP ('$' :: c2 :: tl) = true :=
              (hasPP_cons '$' (c2 :: tl)).mpr (Or.inl ⟨rfl, by simp [hh]⟩)
            rw [this] at hv
            simp at hv
      have hv' : hasPP v = false := by
        cases hpp : hasPP v with
        | false => rfl
        | true =>
            rw [(hasPP_cons c v).mpr (Or.inr hpp)] at hv
            simp at hv
      have hb' : ¬(v.getLast? = some '$' ∧ w.head? = some '(') := by
        rintro ⟨hl, hh⟩
        cases v with
        | nil => simp at hl
        | cons c2 tl => exact hb ⟨by simpa using hl, hh⟩
      rw [List.cons_append]
      cases hres : hasPP (c :: (v ++ w)) with
      | false => rfl
      | true =>
          rcases (hasPP_cons c (v ++ w)).mp hres with hcontra | hcontra
          · exact absurd hcontra hstep
          · rw [ih hv' hb'] at hcontra
            cases hcontra

theorem wfPH_unclosed (rest : List Char) (h : splitAtParen rest = none) :
    wfPH ('$' :: '(' :: rest) = false := by
  rw [wfPH.eq_def]
  split
  · rename_i nm1 r1 heq
    injection heq with h1 h2
    injection h2 with h2 h3
    subst h3
    split
    · rename_i nm2 r2 heq2
      rw [h] at heq2
      cases heq2
    · rfl
  · rename_i c2 r2 hno heq
    injection heq with h1 h2
    exact (hno rest h1.symm h2.symm).elim
  · rename_i heq
    simp at heq

theorem lookupTable_mem {table : List (String × String)} {n v : String}
    (h : lookupTable table n = some v) : ∃ p ∈ table, p.snd = v := by
  unfold lookupTable at h
  cases hf : table.find? (fun p => p.fst = n) with
  | none => rw [hf] at h; cases h
  | some p =>
      rw [hf] at h
      refine ⟨p, List.mem_of_find?_eq_some hf, ?_⟩
      simpa using h

theorem cleanValue_spec {v : String} (h : cleanValue v = true) :
    v.data ≠ [] ∧ hasPP v.data = false ∧ v.data.head? ≠ some '(' ∧
      v.data.getLast? ≠ some '$' := by
  simp only [cleanValue, Bool.and_eq_true, Bool.not_eq_true'] at h
  obtain ⟨⟨⟨h1, h2⟩, h3⟩, h4⟩ := h
  refine ⟨?_, h2, ?_, ?_⟩
  · intro hnil
    rw [hnil] at h1
    simp at h1
  · intro hh
    rw [hh] at h3
    simp at h3
  · intro hh
    rw [hh] at h4
    simp at h4

theorem head?_append_left {α : Type} (l₁ l₂ : List α) (h : l₁ ≠ []) :
    (l₁ ++ l₂).head? = l₁.head? := by
  cases l₁ with
  | nil => exact absurd rfl h
  | cons a l => rfl

/-- When every resolved value is clean (see `cleanValue`) and every `$(`
in the input is well formed, successful scanning leaves no `$(` in the
output. -/
theorem substChars_no_leftover (table : List (String × String))
    (hclean : ∀ p ∈ table, cleanValue p.snd = true) (cs : List Char) :
    ∀ out : List Char, wfPH cs = true → substChars table cs = .ok out →
      hasPP out = false ∧ (out.head? = some '(' → cs.head? = some '(') := by
  induction cs using substChars.induct table with
  | case1 rest nm rest' hsp v hv ih =>
      obtain ⟨he, hn⟩ := splitAtParen_sound hsp
      subst he
      intro out hwf hok
      rw [substChars_placeholder table nm v rest' hn hv] at hok
      cases hs : substChars table rest' with
      | error e => rw [hs] at hok; simp [Except.map] at hok
      | ok t =>
          rw [hs] at hok
          obtain rfl : v.data ++ t = out := by
            simpa [Except.map] using hok
          have hwf' : wfPH rest' = true := by
            rw [wfPH_open nm rest' hn] at hwf
            exact hwf
          obtain ⟨ht, hhead⟩ := ih t hwf' hs
          obtain ⟨p, hp, hpv⟩ := lookupTable_mem hv
          obtain ⟨hne, hnopp, hhd, hlast⟩ := cleanValue_spec (hpv ▸ hclean p hp)
          constructor
          · exact hasPP_append v.data t hnopp ht (fun hcon => hlast hcon.1)
          · intro habs
            rw [head?_append_left v.data t hne] at habs
            exact absurd habs hhd
  | case2 rest nm rest' hsp hv =>
      obtain ⟨he, hn⟩ := splitAtParen_sound hsp
      subst he
      intro out hwf hok
      rw [substChars_unknown table nm rest' hn hv] at hok
      cases hok
  | case3 rest hsp =>
      intro out hwf hok
      rw [wfPH_unclosed rest hsp] at hwf
      cases hwf
  | case4 c rest hno ih =>
      intro out hwf hok
      have hcond : ¬(c = '$' ∧ rest.head? = some '(') := by
        rintro ⟨rfl, hh⟩
        cases rest with
        | nil => simp at hh
        | cons c2 tl =>
            simp only [List.head?_cons, Option.some.injEq] at hh
            exact hno tl rfl (by rw [hh])
      rw [substChars_copy table c rest hcond] at hok
      cases hs : substChars table rest with
      | error e => rw [hs] at hok; simp [Except.map] at hok
      | ok t =>
          rw [hs] at hok
          obtain rfl : c :: t = out := by
            simpa [Except.map] using hok
          rw [wfPH_copy c rest hcond] at hwf
          obtain ⟨ht, hhead⟩ := ih t hwf hs
          constructor
          · cases hres : hasPP (c :: t) with
            | false => rfl
            | true =>
                rcases (hasPP_cons c t).mp hres with ⟨hc, ht'⟩ | hcontra
                · exact absurd ⟨hc, hhead ht'⟩ hcond
                · rw [ht] at hcontra; cases hcontra
          · intro habs
            simp only [List.head?_cons, Option.some.injEq] at habs
            simp [habs]
  | case5 =>
      intro out hwf hok
      obtain rfl : ([] : List Char) = out := by
        rw [substChars] at hok
        simpa using hok
      exact ⟨rfl, by simp⟩

mutual

/-- All string scalars occurring in a document node (keys, values,
sequence elements, at any depth). -/
def nodeStrings : DocumentNode → List String
  | .str s => [s]
  | .int _ => []
  | .bool _ => []
  | .null => []
  | .seq items => seqStrings items
  | .map entries => entriesStrings entries

def seqStrings : List DocumentNode → List String
  | [] => []
  | x :: xs => nodeStrings x ++ seqStrings xs

def entriesStrings : List (DocumentNode × DocumentNode) → List String
  | [] => []
  | (k, v) :: es => nodeStrings k ++ nodeStrings v ++ entriesStrings es

end

theorem nodeStrings_typedScalar (v t : String)
    (ht : t ∈ nodeStrings (typedScalar v)) : t = v := by
  rw [typedScalar] at ht
  split at ht
  · simp [nodeStrings] at ht
  · split at ht
    · simp [nodeStrings] at ht
    · split at ht
      · simp [nodeStrings] at ht
      · split at ht
        · simp [nodeStrings] at ht
        · simpa [nodeStrings] using ht

/-- Scalar-level no-leftover: a successfully substituted scalar contains
no `$(` when the table values are clean and the input well formed. -/
theorem substScalar_no_leftover (table : List (String × String))
    (hclean : ∀ p ∈ table, cleanValue p.snd = true) (s : String)
    (y : DocumentNode) (hwf : wfPH s.data = true)
    (hok : substScalar table s = .ok y) :
    ∀ t ∈ nodeStrings y, hasPP t.data = false := by
  rw [substScalar] at hok
  cases hpw : parseWhole s.data with
  | some nm =>
      rw [hpw] at hok
      cases hv : lookupTable table (String.mk nm) with
      | none => simp only [hv] at hok; cases hok
      | some v =>
          simp only [hv] at hok
          obtain rfl : typedScalar v = y := by simpa using hok
          intro t ht
          obtain ⟨p, hp, hpv⟩ := lookupTable_mem hv
          obtain ⟨_, hnopp, _, _⟩ := cleanValue_spec (hpv ▸ hclean p hp)
          rw [nodeStrings_typedScalar v t ht]
          exact hnopp
  | none =>
      rw [hpw] at hok
      cases hs : substChars table s.data with
      | error e => rw [hs] at hok; simp [except_bind_error] at hok
      | ok u =>
          rw [hs, except_bind_ok] at hok
          obtain rfl : DocumentNode.str (String.mk u) = y := by simpa using hok
          intro t ht
          obtain rfl : t = String.mk u := by simpa [nodeStrings] using ht
          exact (substChars_no_leftover table hclean s.data u hwf hs).1

mutual

/-- Tree-level no-leftover for one node. -/
theorem substNode_no_leftover (table : List (String × String))
    (hclean : ∀ p ∈ table, cleanValue p.snd = true) (x y : DocumentNode)
    (hwf : ∀ s ∈ nodeStrings x, wfPH s.data = true)
    (hok : substNode table x = .ok y) :
    ∀ s ∈ nodeStrings y, hasPP s.data = false := by
  cases x with
  | str s =>
      exact substScalar_no_leftover table hclean s y
        (hwf s (by simp [nodeStrings])) hok
  | int n =>
      obtain rfl : DocumentNode.int n = y := by simpa [substNode] using hok
      simp [nodeStrings]
  | bool b =>
      obtain rfl : DocumentNode.bool b = y := by simpa [substNode] using hok
      simp [nodeStrings]
  | null =>
      obtain rfl : DocumentNode.null = y := by simpa [substNode] using hok
      simp [nodeStrings]
  | seq items =>
      rw [substNode] at hok
      cases hs : substSeq table items with
      | error e => rw [hs] at hok; simp [except_bind_error] at hok
      | ok items' =>
          rw [hs, except_bind_ok] at hok
          obtain rfl : DocumentNode.seq items' = y := by simpa using hok
          have := substSeq_no_leftover table hclean items items'
            (by simpa [nodeStrings] using hwf) hs
          simpa [nodeStrings] using this
  | map entries =>
      rw [substNode] at hok
      cases hs : substEntries table entries with
      | error e => rw [hs] at hok; simp [except_bind_error] at hok
      | ok entries' =>
          rw [hs, except_bind_ok] at hok
          obtain rfl : DocumentNode.map entries' = y := by simpa using hok
          have := substEntries_no_leftover table hclean entries entries'
            (by simpa [nodeStrings] using hwf) hs
          simpa [nodeStrings] using this

/-- Tree-level no-leftover for a sequence of nodes. -/
theorem substSeq_no_leftover (table : List (String × String))
    (hclean : ∀ p ∈ table, cleanValue p.snd = true)
    (items items' : List DocumentNode)
    (hwf : ∀ s ∈ seqStrings items, wfPH s.data = true)
    (hok : substSeq table items = .ok items') :
    ∀ s ∈ seqStrings items', hasPP s.data = false := by
  cases items with
  | nil =>
      obtain rfl : ([] : List DocumentNode) = items' := by
        simpa [substSeq] using hok
      simp [seqStrings]
  | cons x xs =>
      rw [substSeq] at hok
      cases hx : substNode table x with
      | error e => rw [hx] at hok; simp [except_bind_error] at hok
      | ok x' =>
          rw [hx, except_bind_ok] at hok
          cases hxs : substSeq table xs with
          | error e => rw [hxs] at hok; simp [except_bind_error] at hok
          | ok xs' =>
              rw [hxs, except_bind_ok] at hok
              obtain rfl : x' :: xs' = items' := by simpa using hok
              have h1 := substNode_no_leftover table hclean x x'
                (fun s hs => hwf s (by simp [seqStrings, hs])) hx
              have h2 := substSeq_no_leftover table hclean xs xs'
                (fun s hs => hwf s (by simp [seqStrings, hs])) hxs
              intro s hs
              rcases List.mem_append.mp (by simpa [seqStrings] using hs) with h | h
              · exact h1 s h
              · exact h2 s h

/-- Tree-level no-leftover for mapping entries. -/
theorem substEntries_no_leftover (table : List (String × String))
    (hclean : ∀ p ∈ table, cleanValue p.snd = true)
    (es es' : List (DocumentNode × DocumentNode))
    (hwf : ∀ s ∈ entriesStrings es, wfPH s.data = true)
    (hok : substEntries table es = .ok es') :
    ∀ s ∈ entriesStrings es', hasPP s.data = false := by
  cases es with
  | nil =>
      obtain rfl : ([] : List (DocumentNode × DocumentNode)) = es' := by
        simpa [substEntries] using hok
      simp [entriesStrings]
  | cons e es0 =>
      obtain ⟨k, v⟩ := e
      rw [substEntries] at hok
      cases hk : substNode table k with
      | error e => rw [hk] at hok; simp [except_bind_error] at hok
      | ok k' =>
          rw [hk, except_bind_ok] at hok
          cases hv : substNode table v with
          | error e => rw [hv] at hok; simp [except_bind_error] at hok
          | ok v' =>
              rw [hv, except_bind_ok] at hok
              cases hes : substEntries table es0 with
              | error e => rw [hes] at hok; simp [except_bind_error] at hok
              | ok es0' =>
                  rw [hes, except_bind_ok] at hok
                  obtain rfl : (k', v') :: es0' = es' := by simpa using hok
                  have h1 := substNode_no_leftover table hclean k k'
                    (fun s hs => hwf s (by simp [entriesStrings, hs])) hk
                  have h2 := substNode_no_leftover table hclean v v'
                    (fun s hs => hwf s (by simp [entriesStrings, hs])) hv
                  have h3 := substEntries_no_leftover table hclean es0 es0'
                    (fun s hs => hwf s (by simp [entriesStrings, hs])) hes
                  intro s hs
                  have hs' : s ∈ nodeStrings k' ∨ s ∈ nodeStrings v' ∨
                      s ∈ entriesStrings es0' := by
                    simpa [entriesStrings] using hs
                  rcases hs' with h | h | h
                  · exact h1 s h
                  · exact h2 s h
                  · exact h3 s h

end

/-! ## Lemmas about line splitting, joining and trimming -/

/-- Does the line end in a space or tab? -/
def endsWS (l : List Char) : Bool :=
  match l.getLast? with
  | some c => isWS c
  | none => false

theorem splitLines_no_newline (cs : List Char) :
    ∀ m ∈ splitLines cs, '\n' ∉ m := by
  induction cs with
  | nil => simp [splitLines]
  | cons c rest ih =>
      intro m hm
      rw [splitLines] at hm
      by_cases hc : c = '\n'
      · rw [if_pos hc] at hm
        rcases List.mem_cons.mp hm with rfl | hm'
        · simp
        · exact ih m hm'
      · rw [if_neg hc] at hm
        cases hsp : splitLines rest with
        | nil =>
            rw [hsp] at hm
            obtain rfl : m = [c] := by simpa using hm
            intro hmem
            exact hc ((by simpa using hmem : '\n' = c)).symm
        | cons l ls =>
            rw [hsp] at hm
            rcases List.mem_cons.mp hm with rfl | hm'
            · intro hmem
              rcases List.mem_cons.mp hmem with h | h
              · exact hc h.symm
              · exact ih l (by simp [hsp]) h
            · exact ih m (by simp [hsp, hm'])

theorem splitLines_of_no_newline (l : List Char) (h : '\n' ∉ l) :
    splitLines l = [l] := by
  induction l with
  | nil => rfl
  | cons c rest ih =>
      have hc : c ≠ '\n' := fun hc => h (by simp [hc])
      rw [splitLines, if_neg hc, ih (fun hm => h (by simp [hm]))]

theorem splitLines_append (l rest : List Char) (h : '\n' ∉ l) :
    splitLines (l ++ '\n' :: rest) = l :: splitLines rest := by
  induction l with
  | nil => simp [splitLines]
  | cons c tl ih =>
      have hc : c ≠ '\n' := fun hc => h (by simp [hc])
      rw [List.cons_append, splitLines, if_neg hc,
        ih (fun hm => h (by simp [hm]))]

theorem splitLines_joinLines (ls : List (List Char)) (hne : ls ≠ [])
    (h : ∀ l ∈ ls, '\n' ∉ l) : splitLines (joinLines ls) = ls := by
  induction ls with
  | nil => exact absurd rfl hne
  | cons l ls ih =>
      cases ls with
      | nil =>
          rw [joinLines]
          exact splitLines_of_no_newline l (h l (by simp))
      | cons l2 ls2 =>
          have hne2 : l2 :: ls2 ≠ [] := fun hfalse => List.noConfusion hfalse
          have hh2 : ∀ m ∈ l2 :: ls2, '\n' ∉ m := fun m hm => h m (by simp [hm])
          rw [joinLines, splitLines_append l _ (h l (by simp))]
          · rw [ih hne2 hh2]
          · exact fun hfalse => List.noConfusion hfalse

theorem head?_dropWhile_false {α : Type} (p : α → Bool) (l : List α) (a : α)
    (h : (l.dropWhile p).head? = some a) : p a = false := by
  induction l with
  | nil => simp [List.dropWhile] at h
  | cons x xs ih =>
      rw [List.dropWhile] at h
      cases hp : p x with
      | true =>
          simp only [hp] at h
          exact ih h
      | false =>
          simp only [hp, List.head?_cons, Option.some.injEq] at h
          subst h
          exact hp

theorem endsWS_trimR (l : List Char) : endsWS (trimR l) = false := by
  rw [trimR, endsWS]
  cases hh : ((l.reverse.dropWhile isWS).reverse).getLast? with
  | none => rfl
  | some c =>
      rw [List.getLast?_reverse] at hh
      exact head?_dropWhile_false isWS (l.reverse) c hh

theorem mem_trimR {c : Char} {l : List Char} (h : c ∈ trimR l) : c ∈ l := by
  rw [trimR] at h
  rw [List.mem_reverse] at h
  have hsl : List.Sublist (List.dropWhile isWS l.reverse) l.reverse :=
    List.dropWhile_sublist isWS
  simpa using hsl.mem h

theorem trimR_no_newline {l : List Char} (h : '\n' ∉ l) : '\n' ∉ trimR l :=
  fun hm => h (mem_trimR hm)

theorem renderLines_no_newline (objs : List DocumentNode) :
    ∀ l ∈ renderLines objs, '\n' ∉ l := by
  intro l hl
  rw [renderLines] at hl
  obtain ⟨x, hx, rfl⟩ := List.mem_map.mp hl
  obtain ⟨raw, hraw, hx2⟩ := List.mem_flatMap.mp hx
  exact trimR_no_newline (splitLines_no_newline raw x hx2)

/-! ## Length preservation through the pipeline -/

theorem substSeq_length {table : List (String × String)}
    {xs ys : List DocumentNode} (h : substSeq table xs = .ok ys) :
    ys.length = xs.length := by
  induction xs generalizing ys with
  | nil =>
      rw [substSeq] at h
      obtain rfl : ([] : List DocumentNode) = ys := by simpa using h
      rfl
  | cons x xs ih =>
      rw [substSeq] at h
      cases hx : substNode table x with
      | error e => rw [hx] at h; simp [except_bind_error] at h
      | ok x' =>
          rw [hx, except_bind_ok] at h
          cases hxs : substSeq table xs with
          | error e => rw [hxs] at h; simp [except_bind_error] at h
          | ok xs' =>
              rw [hxs, except_bind_ok] at h
              obtain rfl : x' :: xs' = ys := by simpa using h
              simp [ih hxs]

theorem encodeSecrets_length {ss : Secrets} {objs out : List DocumentNode}
    (h : encodeSecrets ss objs = .ok out) : out.length = objs.length := by
  rw [encodeSecrets] at h
  cases hf : ss.find? (fun s => !objs.any (matchesSecret s)) with
  | some s => rw [hf] at h; cases h
  | none =>
      rw [hf] at h
      have h2 : Except.ok (objs.map (fun o =>
          if ss.any (fun s => matchesSecret s o) then encodeObject o else o)) =
            (Except.ok out : Except KtmplError (List DocumentNode)) := h
      injection h2 with h3
      rw [← h3]
      simp

theorem encodeSecretsOpt_length {osec : Option Secrets}
    {objs out : List DocumentNode} (h : encodeSecretsOpt osec objs = .ok out) :
    out.length = objs.length := by
  cases osec with
  | none =>
      rw [encodeSecretsOpt] at h
      obtain rfl : objs = out := by simpa using h
      rfl
  | some ss => exact encodeSecrets_length h

/-- Every successful `process()` run renders some final tree with exactly
one document per original object. -/
theorem process_ok_render (t : Template) (gen : String → String) (out : String)
    (hok : t.process gen = .ok out) :
    ∃ objs₂ : List DocumentNode, out = render objs₂ ∧
      objs₂.length = t.objects.length := by
  rw [Template.process] at hok
  cases hr : resolveParams t.values gen t.parameters with
  | error e => rw [hr] at hok; simp [except_bind_error] at hok
  | ok table =>
      rw [hr, except_bind_ok] at hok
      cases hs : substSeq table t.objects with
      | error e => rw [hs] at hok; simp [except_bind_error] at hok
      | ok objs =>
          rw [hs, except_bind_ok] at hok
          cases he : encodeSecretsOpt t.secrets objs with
          | error e => rw [he] at hok; simp [except_bind_error] at hok
          | ok objs₂ =>
              rw [he, except_bind_ok] at hok
              refine ⟨objs₂, by simpa using hok.symm, ?_⟩
              rw [encodeSecretsOpt_length he, substSeq_length hs]

/-! ## The claims -/

/-- C2: Substitution applies to mapping keys as well as values: whenever a
mapping entry's key is exactly the placeholder `$(NAME)` of a resolved
parameter, successful substitution of the mapping rewrites that key to the
parameter's resolved value (and the entry's value is substituted too); in
particular the `process_keys` test template `objects: [{ $(FOO): bar }]`
with `FOO` resolved to `baz` renders `{ baz: bar }`, i.e. the output text
`---\nbaz: bar`. -/
theorem claim_C2 :
    (∀ (table : List (String × String))
        (es es' : List (DocumentNode × DocumentNode)) (nm v : String)
        (val : DocumentNode),
        substNode table (.map es) = .ok (.map es') →
        (DocumentNode.str ("$(" ++ nm ++ ")"), val) ∈ es →
        (')' : Char) ∉ nm.data → lookupTable table nm = some v →
        ∃ val', (typedScalar v, val') ∈ es' ∧ substNode table val = .ok val') ∧
      (Template.new processKeysTemplate [] none).bind (fun t => t.process gen0) =
        .ok "---\nbaz: bar" := by
  constructor
  · intro table es es' nm v val hok hmem hn hv
    obtain ⟨es₀, heq, hse⟩ := substNode_map table es _ hok
    obtain rfl : es' = es₀ := by injection heq
    obtain ⟨k', v', hm, h1, h2⟩ := substEntries_mem table es es' _ _ hse hmem
    have hws : substNode table (.str ("$(" ++ nm ++ ")")) = .ok (typedScalar v) := by
      rw [substNode]
      exact substScalar_whole table nm v hn hv
    rw [hws] at h1
    obtain rfl : typedScalar v = k' := by simpa using h1
    exact ⟨v', hm, h2⟩
  · simp [Template.new, Template.process, processKeysTemplate, DocumentNode.lookup?,
      lookupEntries, parseDecls, parseDecl, findDup, resolveParams, resolveParam,
      lookupValue, List.find?, gen0, substSeq, substNode, substEntries, substScalar,
      substChars, parseWhole, splitAtParen, lookupTable, typedScalar, parseInt,
      digitsToNat, digitsToNat.go, render, renderLines, emitLines, emitEntries,
      isScalar, scalarChars, indentChars, splitLines, joinLines, trimR,
      List.dropWhile, isWS, except_bind_ok, Except.bind, scalarString,
      Option.toList, encodeSecretsOpt, ParameterValue.raw]

theorem claim_C2_witness :
    ∃ val', (typedScalar "baz", val') ∈
        [(DocumentNode.str "baz", DocumentNode.str "bar")] ∧
      substNode [("FOO", "baz")] (.str "bar") = .ok val' :=
  claim_C2.1 [("FOO", "baz")] [(.str "$(FOO)", .str "bar")]
    [(.str "baz", .str "bar")] "FOO" "baz" (.str "bar")
    (by simp [substNode, substEntries, substScalar, substChars, parseWhole,
      splitAtParen, lookupTable, List.find?, typedScalar, parseInt, digitsToNat,
      digitsToNat.go, except_bind_ok])
    (by simp) (by decide)
    (by simp [lookupTable, List.find?])

theorem parseWhole_not_whole (p nm q : List Char) (hp : hasPP p = false)
    (hn : ')' ∉ nm) (hne : ¬(p = [] ∧ q = [])) :
    parseWhole (p ++ '$' :: '(' :: (nm ++ ')' :: q)) = none := by
  cases p with
  | nil =>
      have hq : q ≠ [] := fun h => hne ⟨rfl, h⟩
      rw [List.nil_append, parseWhole.eq_def]
      split
      · rename_i tail heq
        injection heq with h1 h2
        injection h2 with h2 h3
        subst h3
        split
        · rename_i nm2 heq2
          rw [splitAtParen_append nm q hn] at heq2
          injection heq2 with h4
          have hq2 : q = [] := congrArg Prod.snd h4
          exact absurd hq2 hq
        · rfl
      · rfl
  | cons c rest =>
      rw [List.cons_append, parseWhole.eq_def]
      split
      · rename_i tail heq
        injection heq with h1 h2
        subst h1
        cases rest with
        | nil =>
            rw [List.nil_append] at h2
            injection h2 with h3
            exact absurd h3 (by decide)
        | cons r0 rest2 =>
            rw [List.cons_append] at h2
            injection h2 with h3 h4
            have hcontra : hasPP ('$' :: r0 :: rest2) = true :=
              (hasPP_cons '$' (r0 :: rest2)).mpr (Or.inl ⟨rfl, by simp [h3]⟩)
            rw [hcontra] at hp
            cases hp
      · rfl

/-- C3: Matching policy for string scalars.  (1) A scalar whose entire
content is exactly `$(NAME)` for a resolved `NAME` is replaced by the
resolved value re-parsed as a typed literal scalar; (2) in particular an
integer-looking value becomes an integer scalar (left unquoted by the
emitter); (3) otherwise a `$(NAME)` occurrence inside a larger string is
replaced in place, string-concatenation style, with the surrounding text
preserved and scanning continuing in the remainder. -/
theorem claim_C3 :
    (∀ (table : List (String × String)) (nm v : String),
        (')' : Char) ∉ nm.data → lookupTable table nm = some v →
        substNode table (.str ("$(" ++ nm ++ ")")) = .ok (typedScalar v)) ∧
      (∀ (v : String) (z : Int), parseInt v.data = some z →
        typedScalar v = .int z) ∧
      (∀ (table : List (String × String)) (p nm v q : String) (t : List Char),
        hasPP p.data = false → (')' : Char) ∉ nm.data →
        lookupTable table nm = some v → ¬(p = "" ∧ q = "") →
        substChars table q.data = .ok t →
        substNode table (.str (p ++ "$(" ++ nm ++ ")" ++ q)) =
          .ok (.str (p ++ v ++ String.mk t))) := by
  refine ⟨?_, ?_, ?_⟩
  · intro table nm v hn hv
    rw [substNode]
    exact substScalar_whole table nm v hn hv
  · intro v z hz
    rw [typedScalar, hz]
  · intro table p nm v q t hp hn hv hne ht
    have hdata : (p ++ "$(" ++ nm ++ ")" ++ q).data =
        p.data ++ '$' :: '(' :: (nm.data ++ ')' :: q.data) := by
      simp [String.data_append]
    have hne' : ¬(p.data = [] ∧ q.data = []) := by
      rintro ⟨h1, h2⟩
      exact hne ⟨String.ext h1, String.ext h2⟩
    rw [substNode, substScalar, hdata,
      parseWhole_not_whole p.data nm.data q.data hp hn hne']
    have hboundary :
        ¬(p.data.getLast? = some '$' ∧
          ('$' :: '(' :: (nm.data ++ ')' :: q.data)).head? = some '(') := by
      rintro ⟨h1, h2⟩
      simp at h2
    rw [substChars_clean_pre table p.data _ hp hboundary,
      substChars_placeholder table nm.data v q.data hn
        (by simpa using hv), ht]
    simp only [Except.map, except_bind_ok]
    have : String.mk (p.data ++ (v.data ++ t)) = p ++ v ++ String.mk t := by
      apply String.ext
      simp [String.data_append]
    rw [this]

theorem claim_C3_witness :
    (substNode [("N", "42")] (.str "$(N)") = .ok (typedScalar "42")) ∧
      (typedScalar "42" = .int 42) ∧
      (substNode [("FOO", "baz")] (.str "x$(FOO)y") =
        .ok (.str ("x" ++ "baz" ++ String.mk "y".data))) := by
  refine ⟨?_, ?_, ?_⟩
  · have h := claim_C3.1 [("N", "42")] "N" "42" (by decide)
      (by simp [lookupTable, List.find?])
    simpa using h
  · exact claim_C3.2.1 "42" 42 (by decide)
  · have h := claim_C3.2.2 [("FOO", "baz")] "x" "FOO" "baz" "y" "y".data
      (by decide) (by decide) (by simp [lookupTable, List.find?])
      (by intro hc; exact absurd hc.1 (by decide))
      (by simp [substChars, except_bind_ok])
    simpa using h

theorem resolveParams_append_error (values : ParameterValues)
    (gen : String → String) (ds₁ ds₂ : List ParameterDeclaration)
    (d : ParameterDeclaration) (err : KtmplError)
    (h1 : ∀ d' ∈ ds₁, ∃ e, resolveParam values gen d' = .ok e)
    (h2 : resolveParam values gen d = .error err) :
    resolveParams values gen (ds₁ ++ d :: ds₂) = .error err := by
  induction ds₁ with
  | nil => rw [List.nil_append, resolveParams, h2, except_bind_error]
  | cons d0 ds ih =>
      obtain ⟨e, he⟩ := h1 d0 (by simp)
      rw [List.cons_append, resolveParams, he, except_bind_ok,
        ih (fun d' hd => h1 d' (by simp [hd])), except_bind_error]

theorem resolveParam_missing (values : ParameterValues) (gen : String → String)
    (d : ParameterDeclaration) (hreq : d.required = true)
    (hval : lookupValue values d.name = none) (hdef : d.value = none)
    (hgen : d.generate = none) :
    resolveParam values gen d = .error (.missingRequiredParameter d.name) := by
  simp [resolveParam, hval, hdef, hgen, hreq]

/-- C4: A declared parameter with `required = true`, no caller-supplied
value, no literal default and no generation pattern makes `process()`
fail with `MissingRequiredParameter` naming that parameter (provided the
declarations before it resolve); otherwise resolution follows the order
caller-supplied value, then literal default, then generated value. -/
theorem claim_C4 :
    (∀ (t : Template) (gen : String → String)
        (ds₁ ds₂ : List ParameterDeclaration) (d : ParameterDeclaration),
        t.parameters = ds₁ ++ d :: ds₂ →
        (∀ d' ∈ ds₁, ∃ e, resolveParam t.values gen d' = .ok e) →
        d.required = true → lookupValue t.values d.name = none →
        d.value = none → d.generate = none →
        t.process gen = .error (.missingRequiredParameter d.name)) ∧
      (∀ (values : ParameterValues) (gen : String → String)
        (d : ParameterDeclaration) (v : String),
        lookupValue values d.name = some v →
        resolveParam values gen d = .ok (some (d.name, v))) ∧
      (∀ (values : ParameterValues) (gen : String → String)
        (d : ParameterDeclaration) (dv : String),
        lookupValue values d.name = none → d.value = some dv →
        resolveParam values gen d = .ok (some (d.name, dv))) ∧
      (∀ (values : ParameterValues) (gen : String → String)
        (d : ParameterDeclaration) (pat : String),
        lookupValue values d.name = none → d.value = none →
        d.generate = some pat →
        resolveParam values gen d = .ok (some (d.name, gen pat))) := by
  refine ⟨?_, ?_, ?_, ?_⟩
  · intro t gen ds₁ ds₂ d hparams hok hreq hval hdef hgen
    rw [Template.process, hparams,
      resolveParams_append_error t.values gen ds₁ ds₂ d _ hok
        (resolveParam_missing t.values gen d hreq hval hdef hgen),
      except_bind_error]
  · intro values gen d v hv
    simp [resolveParam, hv]
  · intro values gen d dv hv hd
    simp [resolveParam, hv, hd]
  · intro values gen d pat hv hd hg
    simp [resolveParam, hv, hd, hg]

theorem claim_C4_witness :
    (Template.mk [] [{ name := "P", required := true }] [] none).process gen0 =
        .error (.missingRequiredParameter "P") ∧
      resolveParam [("A", .Plain "x")] gen0
          { name := "A", value := some "d" } = .ok (some ("A", "x")) ∧
      resolveParam [] gen0 { name := "B", value := some "d" } =
        .ok (some ("B", "d")) ∧
      resolveParam [] gen0 { name := "C", generate := some "[a-z]" } =
        .ok (some ("C", gen0 "[a-z]")) := by
  refine ⟨?_, ?_, ?_, ?_⟩
  · exact claim_C4.1 (Template.mk [] [{ name := "P", required := true }] [] none)
      gen0 [] [] { name := "P", required := true } rfl (by simp) rfl
      (by simp [lookupValue, List.find?]) rfl rfl
  · exact claim_C4.2.1 [("A", .Plain "x")] gen0 { name := "A", value := some "d" }
      "x" (by simp [lookupValue, List.find?, ParameterValue.raw])
  · exact claim_C4.2.2.1 [] gen0 { name := "B", value := some "d" } "d"
      (by simp [lookupValue, List.find?]) rfl
  · exact claim_C4.2.2.2 [] gen0 { name := "C", generate := some "[a-z]" }
      "[a-z]" (by simp [lookupValue, List.find?]) rfl rfl

/-- C6: Every declared secret identity must match some secret-kind object
in the substituted tree: if a declared identity matches no object,
`process()` fails with `SecretNotFound` for an unmatched declared
identity (the first one found), and produces no rendered output. -/
theorem claim_C6 (t : Template) (gen : String → String) (ss : Secrets)
    (table : List (String × String)) (objs : List DocumentNode) (s : Secret)
    (hsec : t.secrets = some ss)
    (hres : resolveParams t.values gen t.parameters = .ok table)
    (hsub : substSeq table t.objects = .ok objs)
    (hmem : s ∈ ss) (hnone : ∀ o ∈ objs, matchesSecret s o = false) :
    ∃ s' ∈ ss, (∀ o ∈ objs, matchesSecret s' o = false) ∧
      t.process gen = .error (.secretNotFound s'.name s'.nspace) := by
  have hsome : (ss.find? (fun s0 => !objs.any (matchesSecret s0))).isSome := by
    rw [List.find?_isSome]
    refine ⟨s, hmem, ?_⟩
    simp only [Bool.not_eq_true', List.any_eq_false]
    intro o ho
    simp [hnone o ho]
  obtain ⟨s', hfind⟩ := Option.isSome_iff_exists.mp hsome
  have hmem' : s' ∈ ss := List.mem_of_find?_eq_some hfind
  have hp0 := List.find?_some hfind
  simp only [Bool.not_eq_true', List.any_eq_false] at hp0
  have hnone' : ∀ o ∈ objs, matchesSecret s' o = false := fun o ho => by
    simpa using hp0 o ho
  refine ⟨s', hmem', hnone', ?_⟩
  rw [Template.process, hres, except_bind_ok, hsub, except_bind_ok, hsec,
    encodeSecretsOpt, encodeSecrets, hfind, except_bind_error]

/-- The object of the `missing_secret` test template (a `Namespace`
object, so no secret object matches the declared identity). -/
def missingSecretObject : DocumentNode :=
  .map [(.str "kind", .str "Namespace"),
        (.str "apiVersion", .str "v1"),
        (.str "metadata", .map [(.str "name", .str "$(NAMESPACE)")])]

/-- The `missing_secret` test setup: the template above with
`NAMESPACE=foo` and a declared secret `(ghost, default)`. -/
def missingSecretTemplate : Template :=
  { objects := [missingSecretObject],
    parameters := [{ name := "NAMESPACE",
                     description := some "The namespace to create",
                     required := true, parameterType := some "string" }],
    values := [("NAMESPACE", .Plain "foo")],
    secrets := some [{ name := "ghost", nspace := "default" }] }

theorem claim_C6_witness :
    ∃ s' ∈ [Secret.mk "ghost" "default"],
      (∀ o ∈ [DocumentNode.map [(.str "kind", .str "Namespace"),
          (.str "apiVersion", .str "v1"),
          (.str "metadata", .map [(.str "name", .str "foo")])]],
        matchesSecret s' o = false) ∧
      missingSecretTemplate.process gen0 =
        .error (.secretNotFound s'.name s'.nspace) :=
  claim_C6 missingSecretTemplate gen0 [Secret.mk "ghost" "default"]
    [("NAMESPACE", "foo")]
    [DocumentNode.map [(.str "kind", .str "Namespace"),
        (.str "apiVersion", .str "v1"),
        (.str "metadata", .map [(.str "name", .str "foo")])]]
    (Secret.mk "ghost" "default") rfl
    (by simp [missingSecretTemplate, resolveParams, resolveParam, lookupValue,
      List.find?, ParameterValue.raw, Option.toList, except_bind_ok])
    (by simp [missingSecretTemplate, missingSecretObject, substSeq, substNode,
      substEntries, substScalar, substChars, parseWhole, splitAtParen,
      lookupTable, List.find?, typedScalar, parseInt, digitsToNat,
      digitsToNat.go, except_bind_ok])
    (by simp) (by decide)

theorem findDup_of_dup (l₁ l₂ l₃ : List String) (n : String) :
    ∃ m, findDup (l₁ ++ n :: (l₂ ++ n :: l₃)) = some m := by
  induction l₁ with
  | nil =>
      rw [List.nil_append]
      simp only [findDup, List.append_eq]
      have hmem : n ∈ l₂ ++ n :: l₃ := by simp
      rw [if_pos hmem]
      exact ⟨n, rfl⟩
  | cons a l ih =>
      rw [List.cons_append]
      simp only [findDup, List.append_eq]
      by_cases ha : a ∈ l ++ n :: (l₂ ++ n :: l₃)
      · rw [if_pos ha]
        exact ⟨a, rfl⟩
      · rw [if_neg ha]
        exact ih

/-- C7: A template source declaring two parameters with the same name is
rejected at load time (`Template::new`) with a `DuplicateParameterName`
error, rather than silently keeping the last declaration. -/
theorem claim_C7 (objs pdocs : List DocumentNode) (values : ParameterValues)
    (secrets : Option Secrets) (ds₁ ds₂ ds₃ : List ParameterDeclaration)
    (d₁ d₂ : ParameterDeclaration)
    (hparse : parseDecls pdocs = .ok (ds₁ ++ d₁ :: ds₂ ++ d₂ :: ds₃))
    (hdup : d₁.name = d₂.name) :
    ∃ n, Template.new
        (.map [(.str "objects", .seq objs), (.str "parameters", .seq pdocs)])
        values secrets = .error (.duplicateParameterName n) := by
  obtain ⟨m, hm⟩ := findDup_of_dup (ds₁.map (fun d => d.name))
    (ds₂.map (fun d => d.name)) (ds₃.map (fun d => d.name)) d₁.name
  refine ⟨m, ?_⟩
  simp [Template.new, DocumentNode.lookup?, lookupEntries, except_bind_ok,
    hparse]
  rw [← hdup, hm]

theorem claim_C7_witness :
    ∃ n, Template.new
        (.map [(.str "objects", .seq []),
               (.str "parameters",
                .seq [.map [(.str "name", .str "X")],
                      .map [(.str "name", .str "X")]])])
        [] none = .error (.duplicateParameterName n) :=
  claim_C7 [] [.map [(.str "name", .str "X")], .map [(.str "name", .str "X")]]
    [] none [] [] [] { name := "X" } { name := "X" }
    (by simp [parseDecls, parseDecl, DocumentNode.lookup?, lookupEntries,
      except_bind_ok]) rfl

theorem mem_splitLines_joinLines (ls : List (List Char))
    (h : ∀ l ∈ ls, '\n' ∉ l) :
    ∀ m ∈ splitLines (joinLines ls), m ∈ ls ∨ m = [] := by
  intro m hm
  cases ls with
  | nil =>
      right
      rw [joinLines] at hm
      simpa [splitLines] using hm
  | cons l tl =>
      left
      rwa [splitLines_joinLines (l :: tl) (fun hx => List.noConfusion hx) h] at hm

/-- C8: every line of the rendered output of a successful `process()`
call has its trailing whitespace trimmed: no line ends in a space or a
tab. -/
theorem claim_C8 (t : Template) (gen : String → String) (out : String)
    (hok : t.process gen = .ok out) :
    ∀ l ∈ splitLines out.data, endsWS l = false := by
  obtain ⟨objs₂, rfl, hlen⟩ := process_ok_render t gen out hok
  intro l hl
  have hl' : l ∈ splitLines (joinLines (renderLines objs₂)) := by
    simpa [render] using hl
  rcases mem_splitLines_joinLines (renderLines objs₂)
      (renderLines_no_newline objs₂) l hl' with hmem | rfl
  · rw [renderLines] at hmem
    obtain ⟨x, hx, rfl⟩ := List.mem_map.mp hmem
    exact endsWS_trimR x
  · rfl

theorem claim_C8_witness :
    endsWS ['b', 'a', 'z', ':', ' ', 'b', 'a', 'r'] = false :=
  claim_C8
    (Template.mk [.map [(.str "$(FOO)", .str "bar")]]
      [{ name := "FOO", value := some "baz" }] [] none) gen0 "---\nbaz: bar"
    (by simp [Template.process, resolveParams, resolveParam, lookupValue,
      List.find?, gen0, substSeq, substNode, substEntries, substScalar,
      substChars, parseWhole, splitAtParen, lookupTable, typedScalar, parseInt,
      digitsToNat, digitsToNat.go, render, renderLines, emitLines, emitEntries,
      isScalar, scalarChars, indentChars, splitLines, joinLines, trimR,
      List.dropWhile, isWS, except_bind_ok, encodeSecretsOpt, Option.toList])
    ['b', 'a', 'z', ':', ' ', 'b', 'a', 'r'] (by decide)

theorem splitLines_dashes :
    splitLines ['-', '-', '-'] = [['-', '-', '-']] := by decide

theorem trimR_dashes : trimR ['-', '-', '-'] = ['-', '-', '-'] := by decide

/-- Per-document decomposition of the rendered lines: one `---` marker
line in front of each object's (re-split, trimmed) emitted lines. -/
theorem renderLines_decomp (objs : List DocumentNode) :
    renderLines objs = objs.flatMap (fun o =>
      "---".data :: ((emitLines 0 o).flatMap splitLines).map trimR) := by
  induction objs with
  | nil => rfl
  | cons o rest ih =>
      rw [renderLines] at *
      simp only [List.flatMap_cons, List.flatMap_append, List.map_append,
        List.cons_append] at *
      rw [splitLines_dashes]
      simp only [List.flatMap_cons, List.map_cons, trimR_dashes,
        List.cons_append, List.nil_append]
      rw [ih]
      simp [trimR_dashes]

/-- C9: the rendered output of a successful `process()` call places a
`---` marker line before every emitted document, including the first:
the output's lines decompose as one `---`-headed group per entry of the
original `objects` sequence, and the output text itself begins with
`---` (also when there is exactly one object). -/
theorem claim_C9 (t : Template) (gen : String → String) (out : String)
    (hok : t.process gen = .ok out) (hne : t.objects ≠ []) :
    ∃ docs : List (List (List Char)),
      splitLines out.data = docs.flatMap (fun d => "---".data :: d) ∧
      docs.length = t.objects.length ∧
      ∃ rest, out.data = '-' :: '-' :: '-' :: rest := by
  obtain ⟨objs₂, rfl, hlen⟩ := process_ok_render t gen out hok
  have hobjs : objs₂ ≠ [] := by
    intro h
    rw [h] at hlen
    exact hne (List.eq_nil_of_length_eq_zero hlen.symm)
  have hdata : (render objs₂).data = joinLines (renderLines objs₂) := rfl
  have hrl : renderLines objs₂ ≠ [] := by
    rw [renderLines_decomp]
    cases objs₂ with
    | nil => exact absurd rfl hobjs
    | cons o rest => simp
  refine ⟨objs₂.map (fun o => ((emitLines 0 o).flatMap splitLines).map trimR),
    ?_, by simp [hlen], ?_⟩
  · rw [hdata, splitLines_joinLines _ hrl (renderLines_no_newline objs₂),
      renderLines_decomp]
    rw [List.flatMap_map]
  · cases objs₂ with
    | nil => exact absurd rfl hobjs
    | cons o rest =>
        rw [hdata, renderLines_decomp]
        simp only [List.flatMap_cons, List.cons_append]
        cases h2 : ((emitLines 0 o).flatMap splitLines).map trimR ++
            (rest.flatMap (fun o =>
              "---".data :: ((emitLines 0 o).flatMap splitLines).map trimR)) with
        | nil => exact ⟨[], rfl⟩
        | cons l ls => exact ⟨'\n' :: joinLines (l :: ls), rfl⟩

theorem claim_C9_witness :
    ∃ docs : List (List (List Char)),
      splitLines ("---\nbaz: bar" : String).data =
          docs.flatMap (fun d => "---".data :: d) ∧
        docs.length = [DocumentNode.map [(.str "$(FOO)", .str "bar")]].length ∧
        ∃ rest, ("---\nbaz: bar" : String).data = '-' :: '-' :: '-' :: rest :=
  claim_C9
    (Template.mk [.map [(.str "$(FOO)", .str "bar")]]
      [{ name := "FOO", value := some "baz" }] [] none) gen0 "---\nbaz: bar"
    (by simp [Template.process, resolveParams, resolveParam, lookupValue,
      List.find?, gen0, substSeq, substNode, substEntries, substScalar,
      substChars, parseWhole, splitAtParen, lookupTable, typedScalar, parseInt,
      digitsToNat, digitsToNat.go, render, renderLines, emitLines, emitEntries,
      isScalar, scalarChars, indentChars, splitLines, joinLines, trimR,
      List.dropWhile, isWS, except_bind_ok, encodeSecretsOpt, Option.toList])
    (by simp)

/-- C10: A parameter declaration may omit the `required` field (it is
then treated as not required); with an empty caller-supplied
`ParameterValues` mapping a declaration carrying a literal `value`
resolves to that literal, and on the `process_keys` test template both
`Template::new` and `process()` succeed, substituting the declared
literal. -/
theorem claim_C10 :
    (∀ (dm : DocumentNode) (d : ParameterDeclaration),
        parseDecl dm = .ok d → dm.lookup? "required" = none →
        d.required = false) ∧
      (∀ (gen : String → String) (d : ParameterDeclaration) (v : String),
        d.value = some v → resolveParam [] gen d = .ok (some (d.name, v))) ∧
      (∃ t, Template.new processKeysTemplate [] none = .ok t ∧
        ∀ gen : String → String, t.process gen = .ok "---\nbaz: bar") := by
  refine ⟨?_, ?_, ?_⟩
  · intro dm d hok hreq
    rw [parseDecl, hreq] at hok
    repeat'
      first
      | (split at hok)
      | (simp only [except_bind_ok, except_bind_error] at hok)
    all_goals try (cases hok)
    all_goals first | rfl | simp_all
  · intro gen d v hv
    simp [resolveParam, lookupValue, List.find?, hv]
  · refine ⟨Template.mk [DocumentNode.map [(.str "$(FOO)", .str "bar")]]
      [{ name := "FOO", value := some "baz" }] [] none, ?_, ?_⟩
    · simp [Template.new, processKeysTemplate, DocumentNode.lookup?,
        lookupEntries, parseDecls, parseDecl, findDup, except_bind_ok,
        scalarString]
    · intro gen
      simp [Template.process, resolveParams, resolveParam, lookupValue,
        List.find?, substSeq, substNode, substEntries, substScalar,
        substChars, parseWhole, splitAtParen, lookupTable, typedScalar,
        parseInt, digitsToNat, digitsToNat.go, render, renderLines, emitLines,
        emitEntries, isScalar, scalarChars, indentChars, splitLines, joinLines,
        trimR, List.dropWhile, isWS, except_bind_ok, encodeSecretsOpt,
        Option.toList]

theorem claim_C10_witness :
    (ParameterDeclaration.required { name := "FOO", value := some "baz" } =
        false) ∧
      resolveParam [] gen0 { name := "FOO", value := some "baz" } =
        .ok (some ("FOO", "baz")) := by
  constructor
  · exact claim_C10.1 (.map [(.str "name", .str "FOO"), (.str "value", .str "baz")])
      { name := "FOO", value := some "baz" }
      (by simp [parseDecl, DocumentNode.lookup?, lookupEntries, scalarString,
        except_bind_ok])
      (by simp [DocumentNode.lookup?, lookupEntries])
  · exact claim_C10.2.1 gen0 { name := "FOO", value := some "baz" } "baz" rfl

/-- The entries of an object's `data` mapping (empty when absent or not
a mapping). -/
def dataEntries (o : DocumentNode) : List (DocumentNode × DocumentNode) :=
  match o.lookup? "data" with
  | some (.map es) => es
  | _ => []

theorem encodeEntry_data (v : DocumentNode) :
    encodeEntry (.str "data", v) = (.str "data", encodeData v) := by
  simp [encodeEntry, isKey]

theorem encodeEntry_other (k v : DocumentNode) (h : isKey k "data" = false) :
    encodeEntry (k, v) = (k, v) := by
  simp [encodeEntry, h]

theorem lookupEntries_encode (es : List (DocumentNode × DocumentNode)) :
    lookupEntries (es.map encodeEntry) "data" =
      (lookupEntries es "data").map encodeData := by
  induction es with
  | nil => rfl
  | cons e es ih =>
      obtain ⟨k, v⟩ := e
      cases k with
      | str s =>
          by_cases hs : s = "data"
          · subst hs
            rw [List.map_cons, encodeEntry_data, lookupEntries, lookupEntries]
            simp
          · rw [List.map_cons,
              encodeEntry_other _ _ (by simp [isKey, hs]),
              lookupEntries, lookupEntries]
            simp only [if_neg hs]
            exact ih
      | int n =>
          rw [List.map_cons, encodeEntry_other _ _ (by simp [isKey])]
          simp only [lookupEntries]
          exact ih
      | bool b =>
          rw [List.map_cons, encodeEntry_other _ _ (by simp [isKey])]
          simp only [lookupEntries]
          exact ih
      | null =>
          rw [List.map_cons, encodeEntry_other _ _ (by simp [isKey])]
          simp only [lookupEntries]
          exact ih
      | seq items =>
          rw [List.map_cons, encodeEntry_other _ _ (by simp [isKey])]
          simp only [lookupEntries]
          exact ih
      | map entries =>
          rw [List.map_cons, encodeEntry_other _ _ (by simp [isKey])]
          simp only [lookupEntries]
          exact ih

theorem dataEntries_encodeObject (o : DocumentNode) :
    dataEntries (encodeObject o) =
      (dataEntries o).map (fun e => (e.fst, encodeValue e.snd)) := by
  cases o with
  | map es =>
      rw [encodeObject, dataEntries, dataEntries, DocumentNode.lookup?,
        DocumentNode.lookup?, lookupEntries_encode]
      cases hl : lookupEntries es "data" with
      | none => rfl
      | some v =>
          cases v with
          | map des => simp [encodeData]
          | str s => simp [encodeData]
          | int n => simp [encodeData]
          | bool b => simp [encodeData]
          | null => simp [encodeData]
          | seq items => simp [encodeData]
  | str s => rfl
  | int n => rfl
  | bool b => rfl
  | null => rfl
  | seq items => rfl

/-- C1: For every secret object matched during processing (an object of
the secret kind whose identity is in the declared set), each value entry
under its `data` mapping in the final tree is the base64 encoding of the
raw UTF-8 bytes of the substituted scalar string — embedded newlines
included — so decoding recovers the pre-encoding substituted text
exactly; the `data` keys are unchanged. -/
theorem claim_C1 (table : List (String × String))
    (objs0 objs out : List DocumentNode) (ss : Secrets) (i : Nat)
    (hi : i < objs.length)
    (hsub : substSeq table objs0 = .ok objs)
    (henc : encodeSecrets ss objs = .ok out)
    (hmatch : ∃ s ∈ ss, matchesSecret s objs[i] = true) :
    ∃ ho : i < out.length,
      dataEntries out[i] =
          (dataEntries objs[i]).map (fun e => (e.fst, encodeValue e.snd)) ∧
        (dataEntries out[i]).map Prod.fst =
          (dataEntries objs[i]).map Prod.fst ∧
        ∀ (k : DocumentNode) (sv : String),
          (k, .str sv) ∈ dataEntries objs[i] →
          (k, .str (base64Encode (utf8Bytes sv.data))) ∈ dataEntries out[i] ∧
            base64Decode (base64Encode (utf8Bytes sv.data)) =
              utf8Bytes sv.data := by
  rw [encodeSecrets] at henc
  cases hf : ss.find? (fun s => !objs.any (matchesSecret s)) with
  | some s => rw [hf] at henc; cases henc
  | none =>
      rw [hf] at henc
      have hout : objs.map (fun o =>
          if ss.any (fun s => matchesSecret s o) then encodeObject o
          else o) = out := by
        simpa using henc
      subst hout
      have ho : i < (objs.map (fun o =>
          if ss.any (fun s => matchesSecret s o) then encodeObject o
          else o)).length := by
        simpa using hi
      have hcond : ss.any (fun s => matchesSecret s objs[i]) = true := by
        rw [List.any_eq_true]
        obtain ⟨s, hs, hm⟩ := hmatch
        exact ⟨s, hs, hm⟩
      have hgot : (objs.map (fun o =>
          if ss.any (fun s => matchesSecret s o) then encodeObject o
          else o))[i] = encodeObject objs[i] := by
        rw [List.getElem_map, if_pos hcond]
      refine ⟨ho, ?_, ?_, ?_⟩
      · rw [hgot, dataEntries_encodeObject]
      · rw [hgot, dataEntries_encodeObject, List.map_map]
        rfl
      · intro k sv hmem
        have hdec : base64Decode (base64Encode (utf8Bytes sv.data)) =
            utf8Bytes sv.data := by
          rw [base64Encode, base64Decode]
          have : (String.mk (base64EncodeChars (utf8Bytes sv.data))).data =
              base64EncodeChars (utf8Bytes sv.data) := rfl
          rw [this]
          exact base64_roundtrip (utf8Bytes sv.data) (utf8Bytes_lt sv.data)
        refine ⟨?_, hdec⟩
        rw [hgot, dataEntries_encodeObject]
        have := List.mem_map_of_mem (fun e => (e.fst, encodeValue e.snd)) hmem
        simpa [encodeValue] using this

/-- The substituted `data` payload of the `encode_secrets` test. -/
def secretDataSub : String := "username: \"carl\"\npassword: \"narble\"\n"

/-- The `encode_secrets` secret object before substitution. -/
def secretObjRaw : DocumentNode :=
  .map [(.str "kind", .str "Secret"),
        (.str "apiVersion", .str "v1"),
        (.str "metadata", .map [(.str "name", .str "webapp")]),
        (.str "data",
         .map [(.str "config.yml",
                .str "username: \"carl\"\npassword: \"$(PASSWORD)\"\n")]),
        (.str "type", .str "Opaque")]

/-- The `encode_secrets` secret object after substitution. -/
def secretObjSub : DocumentNode :=
  .map [(.str "kind", .str "Secret"),
        (.str "apiVersion", .str "v1"),
        (.str "metadata", .map [(.str "name", .str "webapp")]),
        (.str "data", .map [(.str "config.yml", .str secretDataSub)]),
        (.str "type", .str "Opaque")]

/-- The `encode_secrets` secret object after base64 encoding. -/
def secretObjEnc : DocumentNode :=
  .map [(.str "kind", .str "Secret"),
        (.str "apiVersion", .str "v1"),
        (.str "metadata", .map [(.str "name", .str "webapp")]),
        (.str "data",
         .map [(.str "config.yml",
                .str (base64Encode (utf8Bytes secretDataSub.data)))]),
        (.str "type", .str "Opaque")]

theorem claim_C1_witness :
    (∃ ho : 0 < ([secretObjEnc] : List DocumentNode).length,
      dataEntries ([secretObjEnc] : List DocumentNode)[0] =
          (dataEntries ([secretObjSub] : List DocumentNode)[0]).map
            (fun e => (e.fst, encodeValue e.snd)) ∧
        (dataEntries ([secretObjEnc] : List DocumentNode)[0]).map Prod.fst =
          (dataEntries ([secretObjSub] : List DocumentNode)[0]).map Prod.fst ∧
        ∀ (k : DocumentNode) (sv : String),
          (k, .str sv) ∈ dataEntries ([secretObjSub] : List DocumentNode)[0] →
          (k, .str (base64Encode (utf8Bytes sv.data))) ∈
              dataEntries ([secretObjEnc] : List DocumentNode)[0] ∧
            base64Decode (base64Encode (utf8Bytes sv.data)) =
              utf8Bytes sv.data) ∧
      base64Encode (utf8Bytes secretDataSub.data) =
        "dXNlcm5hbWU6ICJjYXJsIgpwYXNzd29yZDogIm5hcmJsZSIK" := by
  constructor
  · exact claim_C1 [("PASSWORD", "narble")] [secretObjRaw] [secretObjSub]
      [secretObjEnc] [Secret.mk "webapp" "default"] 0 (by decide)
      (by simp [secretObjRaw, secretObjSub, secretDataSub, substSeq, substNode,
        substEntries, substScalar, substChars, parseWhole, splitAtParen,
        lookupTable, List.find?, typedScalar, parseInt, digitsToNat,
        digitsToNat.go, except_bind_ok])
      (by simp [secretObjSub, secretObjEnc, secretDataSub, encodeSecrets,
        List.find?, List.any, matchesSecret, isSecretKind, objName,
        objNamespace, DocumentNode.lookup?, lookupEntries, encodeObject,
        encodeEntry, encodeData, encodeValue, isKey])
      ⟨Secret.mk "webapp" "default", by simp, by decide⟩
  · decide

theorem seqStrings_mem (xs : List DocumentNode) (s : String) :
    s ∈ seqStrings xs ↔ ∃ o ∈ xs, s ∈ nodeStrings o := by
  induction xs with
  | nil => simp [seqStrings]
  | cons x xs ih =>
      rw [seqStrings]
      constructor
      · intro h
        rcases List.mem_append.mp h with h | h
        · exact ⟨x, by simp, h⟩
        · obtain ⟨o, ho, hs⟩ := ih.mp h
          exact ⟨o, by simp [ho], hs⟩
      · rintro ⟨o, ho, hs⟩
        rcases List.mem_cons.mp ho with rfl | ho'
        · exact List.mem_append.mpr (Or.inl hs)
        · exact List.mem_append.mpr (Or.inr (ih.mpr ⟨o, ho', hs⟩))

/-- C5 (amended): (1) a `$(NAME)` placeholder whose name is not in the
resolved table makes scanning fail with `UnknownParameterReference(NAME)`
(stated for the first placeholder of the string); (2) when substitution
succeeds, every `$(` in the input opens a well-formed placeholder, and
every resolved value is nonempty, free of `$(`, does not start with `(`
and does not end with `$`, then no `$(` survives in any string scalar
(keys included) of the substituted tree. -/
theorem claim_C5 :
    (∀ (table : List (String × String)) (p nm q : List Char),
        hasPP p = false → ')' ∉ nm →
        lookupTable table (String.mk nm) = none →
        substChars table (p ++ '$' :: '(' :: (nm ++ ')' :: q)) =
          .error (.unknownParameterReference (String.mk nm))) ∧
      (∀ (t : Template) (gen : String → String)
          (table : List (String × String)) (objs : List DocumentNode),
        (∀ pr ∈ table, cleanValue pr.snd = true) →
        resolveParams t.values gen t.parameters = .ok table →
        (∀ o ∈ t.objects, ∀ s ∈ nodeStrings o, wfPH s.data = true) →
        substSeq table t.objects = .ok objs →
        ∀ o ∈ objs, ∀ s ∈ nodeStrings o, hasPP s.data = false) := by
  constructor
  · intro table p nm q hp hn hv
    have hb : ¬(p.getLast? = some '$' ∧
        ('$' :: '(' :: (nm ++ ')' :: q)).head? = some '(') := by
      rintro ⟨h1, h2⟩
      simp at h2
    rw [substChars_clean_pre table p _ hp hb,
      substChars_unknown table nm q hn hv]
    rfl
  · intro t gen table objs hclean hres hwf hsub o ho s hs
    have hwf' : ∀ s ∈ seqStrings t.objects, wfPH s.data = true := by
      intro s' hs'
      obtain ⟨o', ho', hso⟩ := (seqStrings_mem t.objects s').mp hs'
      exact hwf o' ho' s' hso
    exact substSeq_no_leftover table hclean t.objects objs hwf' hsub s
      ((seqStrings_mem objs s).mpr ⟨o, ho, hs⟩)

/-- C5 counterexample: a template whose only placeholder `$(FOO)` is
declared and resolved (to the literal value `$(X)`) processes
successfully, yet the rendered output still contains `$(` — so the claim
that no `$(` survives whenever all referenced names are declared and
resolved is false as stated. -/
theorem claim_C5_counterexample :
    (Template.mk [.map [(.str "name", .str "x$(FOO)y")]]
        [{ name := "FOO", value := some "$(X)" }] [] none).process gen0 =
        .ok "---\nname: x$(X)y" ∧
      hasPP ("---\nname: x$(X)y" : String).data = true := by
  constructor
  · simp [Template.process, resolveParams, resolveParam, lookupValue,
      List.find?, gen0, substSeq, substNode, substEntries, substScalar,
      substChars, parseWhole, splitAtParen, lookupTable, typedScalar, parseInt,
      digitsToNat, digitsToNat.go, render, renderLines, emitLines, emitEntries,
      isScalar, scalarChars, indentChars, splitLines, joinLines, trimR,
      List.dropWhile, isWS, except_bind_ok, encodeSecretsOpt, Option.toList]
  · decide

theorem claim_C5_witness :
    (substChars [] ("x".data ++ '$' :: '(' :: ("MISSING".data ++ ')' :: [])) =
        .error (.unknownParameterReference (String.mk "MISSING".data))) ∧
      ∀ o ∈ [DocumentNode.map [(.str "baz", .str "bar")]],
        ∀ s ∈ nodeStrings o, hasPP s.data = false := by
  constructor
  · exact claim_C5.1 [] "x".data "MISSING".data [] (by decide) (by decide) rfl
  · exact claim_C5.2
      (Template.mk [.map [(.str "$(FOO)", .str "bar")]]
        [{ name := "FOO", value := some "baz" }] [] none) gen0
      [("FOO", "baz")] [.map [(.str "baz", .str "bar")]]
      (by decide)
      (by simp [resolveParams, resolveParam, lookupValue, List.find?,
        Option.toList, except_bind_ok])
      (by
        intro o ho s hs
        simp only [List.mem_singleton] at ho
        subst ho
        simp [nodeStrings, entriesStrings] at hs
        rcases hs with rfl | rfl <;> simp [wfPH, splitAtParen])
      (by simp [substSeq, substNode, substEntries, substScalar, substChars,
        parseWhole, splitAtParen, lookupTable, List.find?, typedScalar,
        parseInt, digitsToNat, digitsToNat.go, except_bind_ok])

end Ktmpl
